import Mathlib

set_option maxHeartbeats 1000000

/-!
# Verification of the rust_docs_mcp scrape-extract-cache pipeline

A shallow embedding, in Lean, of the core of the `rust_docs_mcp` server:

* `src/parser.py` — `CargoLockParser.parse_cargo_lock`;
* `src/scraper.py` — `DocsRsScraper.fetch_crate_docs`, `_find_module_links`,
  `_extract_documentation`, `_fetch_feature_flags`, `_parse_feature_flags`,
  `load_cached_docs`, `save_docs_to_disk`;
* `src/core.py` — `fetch_crate_docs_impl`, `save_docs_to_disk_impl`,
  `read_cargo_lock_impl`, `fetch_and_save_project_docs_impl`.

Python dictionaries are modelled as association lists with unique keys in
insertion order; the filesystem cache is a map from directory name to a map
from file name to file content; the network is an oracle mapping URLs to
either an error (a raised exception) or a status/body pair; parsed HTML is a
tree of element and text nodes.  Every embedded function is executable and
built from structural recursion, so theorems about concrete inputs can be
settled by kernel evaluation.
-/

/-! ## Python string primitives

Lean core's `String.splitOn`, `String.trim` and friends are defined by
well-founded recursion and do not reduce in the kernel, so the Python string
operations used by the source are modelled here by structurally recursive
functions on `List Char`. -/

/-- Python `str.startswith`. -/
def startswith (s p : String) : Bool := p.data.isPrefixOf s.data

/-- The whitespace characters stripped by Python's default `str.strip`. -/
def isPySpace (c : Char) : Bool :=
  c = ' ' || c = '\t' || c = '\n' || c = '\r' || c = '\x0b' || c = '\x0c'

/-- Python `str.strip()` with no argument. -/
def pyStrip (s : String) : String :=
  ⟨((s.data.dropWhile isPySpace).reverse.dropWhile isPySpace).reverse⟩

/-- Split a character list at the first occurrence of `sep`, returning the
part before it and the part after it, or `none` if `sep` does not occur. -/
def splitFirst (sep : List Char) : List Char → Option (List Char × List Char)
  | [] => none
  | c :: rest =>
    if sep.isPrefixOf (c :: rest) then some ([], (c :: rest).drop sep.length)
    else
      match splitFirst sep rest with
      | some (pre, post) => some (c :: pre, post)
      | none => none

/-- Fuelled worker for `pySplit`; any fuel larger than the list length is
enough, since each found separator consumes at least one character. -/
def splitChunks (sep : List Char) : Nat → List Char → List (List Char)
  | 0, l => [l]
  | fuel + 1, l =>
    match splitFirst sep l with
    | none => [l]
    | some (pre, post) => pre :: splitChunks sep fuel post

/-- Python `str.split(sep)` with an explicit non-empty separator: split at
every non-overlapping occurrence of `sep`, left to right, keeping empty
chunks (`"".split(sep) == [""]`). -/
def pySplit (s sep : String) : List String :=
  (splitChunks sep.data (s.data.length + 1) s.data).map (fun l => ⟨l⟩)

/-- Python `sep.join(parts)`. -/
def joinWith (sep : String) : List String → String
  | [] => ""
  | [x] => x
  | x :: xs => x ++ sep ++ joinWith sep xs

/-- Python `str.replace(pat, rep)` (replace all occurrences), via the
identity `s.replace(pat, rep) == rep.join(s.split(pat))`. -/
def pyReplace (s pat rep : String) : String := joinWith rep (pySplit s pat)

/-- Python `str.lower` (character-wise lowering). -/
def pyLower (s : String) : String := ⟨s.data.map Char.toLower⟩

/-- Python `needle in hay` substring test. -/
def containsSub (hay needle : String) : Bool :=
  decide (1 < (pySplit hay needle).length)

/-! ## Python dict model -/

/-- Model of a Python `dict`: an association list with unique keys in
insertion order.  `dictInsert` models the assignment `d[k] = v`: an existing
key keeps its position and receives the new value; a new key is appended. -/
def dictInsert {α β : Type} [DecidableEq α] : List (α × β) → α → β → List (α × β)
  | [], k, v => [(k, v)]
  | p :: d, k, v => if p.1 = k then (k, v) :: d else p :: dictInsert d k v

/-- Model of a Python `dict` lookup `d.get(k)`. -/
def dictLookup {α β : Type} [DecidableEq α] : List (α × β) → α → Option β
  | [], _ => none
  | p :: d, k => if p.1 = k then some p.2 else dictLookup d k

/-- Build a dict by a sequence of assignments `d[k] = v` (last write wins,
first occurrence fixes the position of a key). -/
def dictOf {α β : Type} [DecidableEq α] (l : List (α × β)) : List (α × β) :=
  l.foldl (fun d p => dictInsert d p.1 p.2) []

/-! ## Manifest parser (`src/parser.py`) -/

/-- Python `str.strip('"')`: drop every leading and trailing `"` character. -/
def stripQuotes (s : String) : String :=
  ⟨((s.data.dropWhile (· = '"')).reverse.dropWhile (· = '"')).reverse⟩

/-- The value extracted from a (stripped) `name = "..."` or `version = "..."`
line: `line.split(' = ')[1].strip('"')` in `parse_cargo_lock`. -/
def lineValue (line : String) : String :=
  stripQuotes ((pySplit line " = ").getD 1 "")

/-- The inner loop of `CargoLockParser.parse_cargo_lock`: walk the lines of
one section, tracking the current `name` and `version` values (Python `None`
is `none`); each matching line overwrites the tracked value. -/
def scanNV : Option String × Option String → List String → Option String × Option String
  | st, [] => st
  | (n, v), line :: rest =>
    let l := pyStrip line
    if startswith l "name = " then scanNV (some (lineValue l), v) rest
    else if startswith l "version = " then scanNV (n, some (lineValue l)) rest
    else scanNV (n, v) rest

/-- The pair one section contributes in `parse_cargo_lock`: the tracked name
and version, kept only when both are truthy (`if name and version:` — not
`None` and non-empty). -/
def sectionPair (sec : String) : Option (String × String) :=
  match scanNV (none, none) (pySplit (pyStrip sec) "\n") with
  | (some n, some v) => if n ≠ "" ∧ v ≠ "" then some (n, v) else none
  | _ => none

/-- `CargoLockParser.parse_cargo_lock` (src/parser.py): split the content on
blank lines (`content.split('\n\n')`), process each section whose stripped
text starts with `[[package]]`, and record `dependencies[name] = version`.
The function is total: no input makes it fail. -/
def parse_cargo_lock (content : String) : List (String × String) :=
  (pySplit content "\n\n").foldl
    (fun deps sec =>
      if startswith (pyStrip sec) "[[package]]" then
        match sectionPair sec with
        | some (n, v) => dictInsert deps n v
        | none => deps
      else deps)
    []

/-! ### Specification-side restatement of the parser (claim C4) -/

/-- The last element of a list, or a default. -/
def lastOpt {α : Type} (l : List α) (d : Option α) : Option α :=
  l.foldl (fun _ x => some x) d

/-- The values of the `name = ` lines of a section, in order. -/
def nameValues (lines : List String) : List String :=
  ((lines.map pyStrip).filter (fun l => startswith l "name = ")).map lineValue

/-- The values of the `version = ` lines of a section, in order. -/
def versionValues (lines : List String) : List String :=
  ((lines.map pyStrip).filter (fun l => startswith l "version = ")).map lineValue

/-- Claim-side description of one block's contribution: a `[[package]]` block
containing both a name line and a version line contributes the pair of their
values (the last such line of each kind when several occur), provided both
values are non-empty; a block lacking either field contributes nothing. -/
def specSectionPair (sec : String) : Option (String × String) :=
  match (lastOpt (nameValues (pySplit (pyStrip sec) "\n")) none,
         lastOpt (versionValues (pySplit (pyStrip sec) "\n")) none) with
  | (some n, some v) => if n ≠ "" ∧ v ≠ "" then some (n, v) else none
  | _ => none

/-- Claim-side description of the whole parse: each `[[package]]` block's
contribution enters a map with last-write-wins semantics and first-occurrence
key order. -/
def specParse (content : String) : List (String × String) :=
  (pySplit content "\n\n").foldl
    (fun deps sec =>
      if startswith (pyStrip sec) "[[package]]" then
        match specSectionPair sec with
        | some (n, v) => dictInsert deps n v
        | none => deps
      else deps)
    []

/-! ## Filename sanitization and path stems -/

/-- The characters replaced by `re.sub(r'[<>:"/\\|?*]', '_', ...)` in
`save_docs_to_disk`. -/
def reservedChars : List Char := ['<', '>', ':', '"', '/', '\\', '|', '?', '*']

/-- One character of the sanitizing substitution. -/
def sanChar (c : Char) : Char := if c ∈ reservedChars then '_' else c

/-- The "safe filename" computed by `save_docs_to_disk` for a section key:
every reserved character is replaced by `_`. -/
def sanitizeKey (s : String) : String := ⟨s.data.map sanChar⟩

/-- Worker for `fileStem`: walk the reversed character list looking for the
last dot of the name; `seen` holds the characters after that dot. -/
def stemAux (seen : List Char) : List Char → Option (List Char)
  | [] => none
  | c :: rest =>
    if c = '.' then
      if seen.isEmpty || rest.isEmpty then none else some rest.reverse
  else stemAux (c :: seen) rest

/-- `pathlib.PurePath.stem` (used by `load_cached_docs` as the dict key): the
file name without its final suffix; a name whose only dot is leading or
trailing has no suffix and is its own stem. -/
def fileStem (name : String) : String :=
  match stemAux [] name.data.reverse with
  | some stemChars => ⟨stemChars⟩
  | none => name

/-- The `crate_dir.glob("*.md")` test of `load_cached_docs`: `fnmatch`'s
`*.md` pattern matches exactly the names ending in `.md`. -/
def endsWithMd (name : String) : Bool :=
  match name.data.reverse with
  | 'd' :: 'm' :: '.' :: _ => true
  | _ => false

/-! ## Documentation cache (`load_cached_docs` / `save_docs_to_disk`) -/

/-- The documentation cache on disk: directory name `{crate}-{version}` ↦
the files of that directory (file name ↦ content), both in creation order. -/
abbrev CacheFS := List (String × List (String × String))

/-- `load_cached_docs` (src/scraper.py): `None` when the crate directory
does not exist; otherwise read every `*.md` file except the `README.md`
index into a dict keyed by the file stem.  In-model file reads do not fail,
so the exception path returning `None` is unreachable. -/
def load_cached_docs (crate version : String) (fs : CacheFS) :
    Option (List (String × String)) :=
  match dictLookup fs (crate ++ "-" ++ version) with
  | none => none
  | some files =>
    some (dictOf ((files.filter (fun p => endsWithMd p.1 && p.1 ≠ "README.md")).map
      (fun p => (fileStem p.1, p.2))))

/-- The content files written by `save_docs_to_disk`: one
`{sanitized key}.md` file per docs entry, overwriting files of the same
name, on top of the files already in the directory. -/
def storeContentFiles (docs : List (String × String)) (files0 : List (String × String)) :
    List (String × String) :=
  docs.foldl (fun fs kv => dictInsert fs (sanitizeKey kv.1 ++ ".md") kv.2) files0

/-- The generated `README.md` index content of `save_docs_to_disk`. -/
def indexContent (crate version : String) (docs : List (String × String)) : String :=
  "# " ++ crate ++ " v" ++ version ++ " Documentation\n\nGenerated from docs.rs\n\n## Modules\n\n"
    ++ String.join (docs.map (fun kv => "- [" ++ kv.1 ++ "](./" ++ sanitizeKey kv.1 ++ ".md)\n"))

/-- `save_docs_to_disk` (src/scraper.py): create the crate directory if
missing (`mkdir(exist_ok=True)` — existing files are kept), write one
sanitized content file per entry, then (re)write the `README.md` index, and
return the directory path (modelled as the directory name).  Filesystem
failures are outside this model, so the save always succeeds and the
returned path is non-empty. -/
def save_docs_to_disk (crate version : String) (docs : List (String × String))
    (fs : CacheFS) : CacheFS × String :=
  let dirName := crate ++ "-" ++ version
  let files0 := (dictLookup fs dirName).getD []
  let files1 := dictInsert (storeContentFiles docs files0) "README.md"
    (indexContent crate version docs)
  (dictInsert fs dirName files1, dirName)

/-! ## Parsed HTML model (BeautifulSoup trees) -/

/-- A parsed HTML document: element nodes carrying a tag name, attributes and
children, and text nodes. -/
inductive Node where
  | text (s : String)
  | elem (tag : String) (attrs : List (String × String)) (children : List Node)

/-- The tag name of a node (text nodes have none). -/
def tagOf : Node → String
  | .text _ => ""
  | .elem t _ _ => t

/-- The attribute lookup `tag.get(name)`. -/
def attrOf : Node → String → Option String
  | .text _, _ => none
  | .elem _ attrs _, k => dictLookup attrs k

mutual

/-- The raw strings contained in a node, in document order. -/
def Node.texts : Node → List String
  | .text s => [s]
  | .elem _ _ cs => Node.textsList cs

def Node.textsList : List Node → List String
  | [] => []
  | n :: ns => Node.texts n ++ Node.textsList ns

end

/-- `tag.get_text()`: the concatenation of all contained strings. -/
def getText (n : Node) : String := String.join n.texts

/-- `tag.get_text(strip=True)`: every contained string is stripped before
joining (bs4 also skips whitespace-only strings, which contribute nothing
under the empty separator anyway). -/
def getTextStrip (n : Node) : String := String.join (n.texts.map pyStrip)

mutual

/-- All element descendants of a node paired with the tag name of their
parent, in document order (pre-order); bs4's `find_all` walks these. -/
def Node.descWP : Node → List (String × Node)
  | .text _ => []
  | .elem t _ cs => Node.descListWP t cs

def Node.descListWP (p : String) : List Node → List (String × Node)
  | [] => []
  | n :: ns => Node.withParent p n ++ Node.descListWP p ns

/-- One node (when it is an element) together with its subtree, each entry
paired with its parent's tag. -/
def Node.withParent (p : String) : Node → List (String × Node)
  | .text _ => []
  | .elem t a cs => (p, Node.elem t a cs) :: Node.descListWP t cs

end

mutual

/-- bs4 `.string`: the contained string of an element whose child chain is a
single node, else `None`. -/
def nodeString : Node → Option String
  | .text s => some s
  | .elem _ _ cs => nodeStringList cs

def nodeStringList : List Node → Option String
  | [c] => nodeString c
  | _ => none

end

/-- The whitespace-separated words of a string (used for the token list of a
`class` attribute). -/
def wordsAux : List Char → List Char → List String
  | acc, [] => if acc.isEmpty then [] else [⟨acc.reverse⟩]
  | acc, c :: rest =>
    if isPySpace c then
      (if acc.isEmpty then [] else [⟨acc.reverse⟩]) ++ wordsAux [] rest
    else wordsAux (c :: acc) rest

/-- The class tokens of an element (HTML class attributes are
whitespace-separated lists; absent attribute gives no tokens). -/
def classTokens (n : Node) : List String :=
  pyWords ((attrOf n "class").getD "")
where
  pyWords (s : String) : List String := wordsAux [] s.data

/-! ## Content extractor (`DocsRsScraper._extract_documentation`) -/

/-- The content-landmark fallback chain of `_extract_documentation`:
`soup.find('main') or soup.find('div', class_='docblock') or
soup.find('div', id='main')`; `find` takes the first matching descendant in
document order. -/
def findMainContent (soup : Node) : Option Node :=
  match (soup.descWP.filter (fun pn => tagOf pn.2 = "main")).head? with
  | some pn => some pn.2
  | none =>
    match (soup.descWP.filter (fun pn => tagOf pn.2 = "div"
        && (classTokens pn.2).contains "docblock")).head? with
    | some pn => some pn.2
    | none =>
      match (soup.descWP.filter (fun pn => tagOf pn.2 = "div"
          && attrOf pn.2 "id" = some "main")).head? with
      | some pn => some pn.2
      | none => none

/-- `int(element.name[1])` for a heading tag `h1`…`h6`. -/
def headingLevel (t : String) : Nat := (t.data.getD 1 '0').toNat - '0'.toNat

/-- The tag list of `_extract_documentation`'s `find_all`. -/
def wantedTags : List String :=
  ["h1", "h2", "h3", "h4", "h5", "h6", "p", "pre", "code", "ul", "ol", "li"]

/-- The markdown fragments one matched element contributes in
`_extract_documentation`, given the tag name of its immediate parent,
following the source's branch order: heading tags (the only matched tags
starting with `h`) become `#`-prefixed lines; `p` its stripped text when
non-empty; `pre` a fenced rust code block of the raw text; `code` a
backtick-wrapped span unless the immediate parent is `pre`
(`element.parent.name != 'pre'`); `ul`/`ol` one `- ` or `1. ` line per
non-empty direct `li` child followed by an empty fragment; a bare `li`
(also matched by the `find_all`) hits no branch and contributes nothing. -/
def fragmentFor (parent : String) (n : Node) : List String :=
  match n with
  | .text _ => []
  | .elem t _ cs =>
    if startswith t "h" then
      ["\n" ++ (⟨List.replicate (headingLevel t) '#'⟩ : String) ++ " "
        ++ getTextStrip n ++ "\n"]
    else if t = "p" then
      if getTextStrip n ≠ "" then [getTextStrip n ++ "\n"] else []
    else if t = "pre" then
      ["```rust\n" ++ getText n ++ "\n```\n"]
    else if t = "code" then
      if parent ≠ "pre" then ["`" ++ getText n ++ "`"] else []
    else if t = "ul" || t = "ol" then
      (cs.filter (fun c => tagOf c = "li")).filterMap (fun li =>
        if getTextStrip li ≠ "" then
          some ((if t = "ul" then "-" else "1.") ++ " " ++ getTextStrip li ++ "\n")
        else none) ++ [""]
    else []

/-- The `markdown_parts` list built by `_extract_documentation`: the
`# title` header plus the fragments of every matched descendant of the
content landmark, in document order; empty when no landmark exists. -/
def extractFragments (soup : Node) (title : String) : List String :=
  match findMainContent soup with
  | none => []
  | some mc =>
    ("# " ++ title ++ "\n")
      :: (mc.descWP.filter (fun pn => wantedTags.contains (tagOf pn.2))).flatMap
          (fun pn => fragmentFor pn.1 pn.2)

/-- `DocsRsScraper._extract_documentation` (src/scraper.py): return `""`
when no content landmark exists, else the newline-join of the fragment
list. -/
def extract_doc_markdown (soup : Node) (title : String) : String :=
  joinWith "\n" (extractFragments soup title)

mutual

/-- Whether every `code` element of the node is nested, at any depth, inside
a `pre` element; `inPre` records whether some ancestor seen so far is
`pre`. -/
def codesNestedInPre : Bool → Node → Bool
  | _, .text _ => true
  | inPre, .elem t _ cs =>
    ((t ≠ "code") || inPre) && codesNestedInPreList (inPre || t = "pre") cs

def codesNestedInPreList : Bool → List Node → Bool
  | _, [] => true
  | b, n :: ns => codesNestedInPre b n && codesNestedInPreList b ns

end

/-- A document whose only `code` element sits at depth two inside a `pre`
block (`main > pre > span > code`). -/
def docPreSpanCode : Node :=
  .elem "html" [] [.elem "main" [] [.elem "pre" [] [.elem "span" []
    [.elem "code" [] [.text "x"]]]]]

/-! ## Link discovery (`DocsRsScraper._find_module_links`) -/

/-- `href.endswith('.html')`. -/
def endsWithHtml (name : String) : Bool :=
  match name.data.reverse with
  | 'l' :: 'm' :: 't' :: 'h' :: '.' :: _ => true
  | _ => false

/-- The base URL up to and including its last `/` (its "directory"). -/
def baseDir (base : String) : String :=
  ⟨(base.data.reverse.dropWhile (fun c => c ≠ '/')).reverse⟩

/-- The scheme and host of a URL: everything before the first `/` after
`://`. -/
def schemeHost (base : String) : String :=
  match pySplit base "://" with
  | scheme :: rest :: _ =>
    scheme ++ "://" ++ (⟨rest.data.takeWhile (fun c => c ≠ '/')⟩ : String)
  | _ => base

/-- Simplified model of `urllib.parse.urljoin` covering the resolution
shapes exercised here: an absolute href (containing `://`) stands alone; a
root-relative href (leading `/`) replaces the base URL's path; any other
href is appended to the base URL's directory.  Dot-segment normalization is
not modelled; no claim depends on the exact resolved URL, which is produced
and consumed symmetrically inside the fetch. -/
def urljoin (base href : String) : String :=
  if containsSub href "://" then href
  else if startswith href "/" then schemeHost base ++ href
  else baseDir base ++ href

/-- `DocsRsScraper._find_module_links` (src/scraper.py): every anchor
element with an href that is non-empty and contains `/` or ends in `.html`
contributes a candidate link; the display name is the anchor's stripped
text, else the last path segment of the href with `.html` removed; entries
whose name is empty or starts with `http` are discarded; not deduplicated,
in document order. -/
def find_module_links (soup : Node) (baseUrl : String) : List (String × String) :=
  soup.descWP.filterMap (fun pn =>
    if tagOf pn.2 = "a" then
      match attrOf pn.2 "href" with
      | none => none
      | some href =>
        if href ≠ "" && (href.data.contains '/' || endsWithHtml href) then
          let fullUrl := urljoin baseUrl href
          let nameA := getTextStrip pn.2
          let moduleName := if nameA ≠ "" then nameA
            else pyReplace ((pySplit href "/").getLast?.getD "") ".html" ""
          if moduleName ≠ "" && !(startswith moduleName "http") then
            some (moduleName, fullUrl)
          else none
        else none
    else none)

/-! ## Feature flags (`DocsRsScraper._parse_feature_flags`) -/

/-- Whether an element's class attribute satisfies
`lambda x: x and 'feature' in x.lower()`. -/
def classHasFeature (n : Node) : Bool :=
  match attrOf n "class" with
  | none => false
  | some c => c ≠ "" && containsSub (pyLower c) "feature"

/-- The element descendants of a node with a given tag (`find_all(tag)`). -/
def findAllTag (n : Node) (t : String) : List Node :=
  (n.descWP.filter (fun pn => tagOf pn.2 = t)).map Prod.snd

/-- The element descendants of a node with either of two tags
(`find_all([t1, t2])`). -/
def findAllTag2 (n : Node) (t1 t2 : String) : List Node :=
  (n.descWP.filter (fun pn => tagOf pn.2 = t1 || tagOf pn.2 = t2)).map Prod.snd

/-- The `## Available Features` fragments one table contributes in
`_parse_feature_flags`: a table with rows whose header row's cells mention
`feature`, `name` or `description` emits the section; each later row with
at least two cells and non-empty stripped name and description contributes
a backticked sub-heading and its description. -/
def tableFragments (table : Node) : List String :=
  match findAllTag table "tr" with
  | [] => []
  | headerRow :: rows =>
    let joined := joinWith " "
      ((findAllTag2 headerRow "th" "td").map (fun th => pyLower (getTextStrip th)))
    if containsSub joined "feature" || containsSub joined "name"
        || containsSub joined "description" then
      "\n## Available Features\n"
        :: rows.flatMap (fun row =>
          match findAllTag2 row "td" "th" with
          | c0 :: c1 :: _ =>
            if getTextStrip c0 ≠ "" && getTextStrip c1 ≠ "" then
              ["### `" ++ getTextStrip c0 ++ "`", getTextStrip c1 ++ "\n"]
            else []
          | _ => [])
    else []

/-- The `## Feature List` fragments one list contributes in
`_parse_feature_flags`: a list with items one of whose first three mentions
`feature` emits the section with one bullet per non-empty item, then an
empty fragment. -/
def listFragments (ul : Node) : List String :=
  let items := findAllTag ul "li"
  if !items.isEmpty
      && (items.take 3).any (fun it => containsSub (pyLower (getText it)) "feature") then
    "\n## Feature List\n"
      :: (items.filterMap (fun li =>
        if getTextStrip li ≠ "" then some ("- " ++ getTextStrip li) else none)
      ++ [""])
  else []

/-- The candidate feature sections of `_parse_feature_flags`: `div`/`section`
elements with a feature-mentioning class; else tables whose `th` texts
mention `feature`; else the main content region (`main`, `div` with class
`content`, or `body`) as a single section; else none. -/
def featureSections (soup : Node) : List Node :=
  let fs1 := (soup.descWP.filter (fun pn =>
      (tagOf pn.2 = "div" || tagOf pn.2 = "section") && classHasFeature pn.2)).map Prod.snd
  if !fs1.isEmpty then fs1
  else
    let fs2 := (findAllTag soup "table").filter (fun tb =>
      (findAllTag tb "th").any (fun th => containsSub (pyLower (getText th)) "feature"))
    if !fs2.isEmpty then fs2
    else
      match (soup.descWP.filter (fun pn => tagOf pn.2 = "main")).head? with
      | some pn => [pn.2]
      | none =>
        match (soup.descWP.filter (fun pn => tagOf pn.2 = "div"
            && (classTokens pn.2).contains "content")).head? with
        | some pn => [pn.2]
        | none =>
          match (soup.descWP.filter (fun pn => tagOf pn.2 = "body")).head? with
          | some pn => [pn.2]
          | none => []

/-- `DocsRsScraper._parse_feature_flags` (src/scraper.py): collect table and
list fragments from every candidate section; when only the title line was
produced, fall back to up to 5 `div`/`p` elements whose `.string` mentions
`feature` and whose stripped text is longer than 10 characters; return `""`
unless the assembled text is longer than the bare title line. -/
def parse_feature_flags (soup : Node) (crate : String) : String :=
  let parts1 := ("# " ++ crate ++ " - Feature Flags\n")
    :: (featureSections soup).flatMap (fun sec =>
      (findAllTag sec "table").flatMap tableFragments
        ++ (findAllTag2 sec "ul" "ol").flatMap listFragments)
  let parts2 :=
    if parts1.length = 1 then
      let contentDivs := (soup.descWP.filter (fun pn =>
        (tagOf pn.2 = "div" || tagOf pn.2 = "p")
          && (match nodeString pn.2 with
              | some s => s ≠ "" && containsSub (pyLower s) "feature"
              | none => false))).map Prod.snd
      if !contentDivs.isEmpty then
        parts1 ++ ("\n## Feature Information\n"
          :: (contentDivs.take 5).filterMap (fun dv =>
            if getTextStrip dv ≠ "" && 10 < (getTextStrip dv).length then
              some (getTextStrip dv ++ "\n")
            else none))
      else parts1
    else parts1
  let result := joinWith "\n" parts2
  if ("# " ++ crate ++ " - Feature Flags").length < (pyStrip result).length then result
  else ""

/-! ## The network fetch (`DocsRsScraper.fetch_crate_docs`) -/

/-- The environment a fetch runs in: `get` maps a URL to either a raised
exception (`Except.error`) or an HTTP status and body text; `parseHtml`
models `BeautifulSoup(content, 'html.parser')`, which may also raise.
Quantifying a theorem over `World` quantifies over every pattern of network
and parse failures. -/
structure World where
  get : String → Except String (Nat × String)
  parseHtml : String → Except String Node

/-- The root documentation URL
`https://docs.rs/{crate}/{version}/{crate}/`. -/
def docsBaseUrl (crate version : String) : String :=
  "https://docs.rs/" ++ crate ++ "/" ++ version ++ "/" ++ crate ++ "/"

/-- The feature-flags URL `https://docs.rs/crate/{crate}/{version}/features`. -/
def featuresUrl (crate version : String) : String :=
  "https://docs.rs/crate/" ++ crate ++ "/" ++ version ++ "/features"

/-- The module loop of `fetch_crate_docs` over the already-truncated link
list: each iteration issues one request (appended to the trace) whatever its
outcome; a raised request or parse error is caught by the per-link handler
and skipped; a non-200 status contributes nothing; a successful page's
non-empty extraction enters the docs dict under the module path.  Returns
the grown dict and the requested URLs in order. -/
def fetchModules (w : World) : List (String × String) → List (String × String) →
    List (String × String) × List String
  | docs, [] => (docs, [])
  | docs, (name, url) :: rest =>
    let docs1 :=
      match w.get url with
      | .error _ => docs
      | .ok (st, body) =>
        if st = 200 then
          match w.parseHtml body with
          | .error _ => docs
          | .ok soup =>
            let d := extract_doc_markdown soup name
            if d ≠ "" then dictInsert docs name d else docs
        else docs
    let next := fetchModules w docs1 rest
    (next.1, url :: next.2)

/-- `DocsRsScraper._fetch_feature_flags` (src/scraper.py): one request to
the features URL; a raised error or non-200 status yields `""` (its own
`try`/warning path); a parsed page is fed to `_parse_feature_flags`.
Returns the markdown and the requested URL. -/
def fetch_feature_flags (w : World) (crate version : String) : String × List String :=
  match w.get (featuresUrl crate version) with
  | .error _ => ("", [featuresUrl crate version])
  | .ok (st, body) =>
    if st ≠ 200 then ("", [featuresUrl crate version])
    else
      match w.parseHtml body with
      | .error _ => ("", [featuresUrl crate version])
      | .ok soup => (parse_feature_flags soup crate, [featuresUrl crate version])

/-- The body of `fetch_crate_docs` inside its outermost `try`: a raised root
request or parse exception propagates out of the body (`Except.error`), to
be caught by the outer handler; a non-200 root status is not an exception —
it returns the docs collected so far (still empty).  On success the root
page is extracted under `"index"`, the discovered links are truncated to the
first 10 and fetched, and the features page is fetched only when requested.
The second component is the trace of requested URLs. -/
def fetchBody (w : World) (crate version : String) (includeFeatures : Bool) :
    Except String (List (String × String)) × List String :=
  match w.get (docsBaseUrl crate version) with
  | .error e => (.error e, [docsBaseUrl crate version])
  | .ok (status, content) =>
    if status ≠ 200 then (.ok [], [docsBaseUrl crate version])
    else
      match w.parseHtml content with
      | .error e => (.error e, [docsBaseUrl crate version])
      | .ok soup =>
        let mainDoc := extract_doc_markdown soup (crate ++ " (main)")
        let docs0 := if mainDoc ≠ "" then dictInsert [] "index" mainDoc else []
        let links := find_module_links soup (docsBaseUrl crate version)
        let modules := fetchModules w docs0 (links.take 10)
        if includeFeatures then
          let feats := fetch_feature_flags w crate version
          let docs2 := if feats.1 ≠ "" then dictInsert modules.1 "features" feats.1
            else modules.1
          (.ok docs2, docsBaseUrl crate version :: (modules.2 ++ feats.2))
        else (.ok modules.1, docsBaseUrl crate version :: modules.2)

/-- `DocsRsScraper.fetch_crate_docs` (src/scraper.py): run the body; the
outermost `except` catches any propagated exception and returns the docs
collected so far (necessarily empty, since only the root request/parse
raises past the inner handlers).  The result is `Except.ok` precisely
because of that outer handler. -/
def fetch_crate_docs (w : World) (crate version : String) (includeFeatures : Bool) :
    Except String (List (String × String)) × List String :=
  match fetchBody w crate version includeFeatures with
  | (.error _, tr) => (.ok [], tr)
  | (.ok d, tr) => (.ok d, tr)

/-- A network where every request answers 404. -/
def w404 : World := ⟨fun _ => .ok (404, ""), fun _ => .error "unreached"⟩

/-- An anchor used by `soup12`. -/
def anchorTo (s : String) : Node := .elem "a" [("href", s ++ ".html")] [.text s]

/-- A root page with twelve discoverable module links. -/
def soup12 : Node :=
  .elem "html" [] [anchorTo "m0", anchorTo "m1", anchorTo "m2", anchorTo "m3",
    anchorTo "m4", anchorTo "m5", anchorTo "m6", anchorTo "m7", anchorTo "m8",
    anchorTo "m9", anchorTo "ma", anchorTo "mb"]

/-- A network that always answers 200 and parses every page as `soup12`. -/
def w12 : World := ⟨fun _ => .ok (200, ""), fun _ => .ok soup12⟩

/-! ## Core workflow (`src/core.py`) -/

/-- The externally visible cache/fetch actions of the workflow, recorded so
the frame conditions of claims C1 and C8 can be stated. -/
inductive Event where
  | fetch (crate version : String)
  | store (crate version : String)
deriving DecidableEq

/-- The cache-miss path of `fetch_crate_docs_impl` (src/core.py): fetch from
docs.rs (the workflow call leaves `include_features` at its default
`False`); on non-empty result automatically save to the cache; the
surrounding `try` would turn a raised error into `{}`, though the scraper
never raises (claim C6). -/
def fetchAndStoreDocs (w : World) (crate version : String) (fs : CacheFS) :
    List (String × String) × CacheFS × List Event :=
  let docs := match (fetch_crate_docs w crate version false).1 with
    | .ok d => d
    | .error _ => []
  if docs ≠ [] then
    (docs, (save_docs_to_disk crate version docs fs).1,
      [Event.fetch crate version, Event.store crate version])
  else (docs, fs, [Event.fetch crate version])

/-- `fetch_crate_docs_impl` (src/core.py): first try the cache; a truthy
(non-`None` and non-empty) cached dict is returned with no fetch and no
store; otherwise fetch from docs.rs, saving a non-empty result. -/
def fetch_crate_docs_impl (w : World) (crate version : String) (fs : CacheFS) :
    List (String × String) × CacheFS × List Event :=
  match load_cached_docs crate version fs with
  | some cached =>
    if cached ≠ [] then (cached, fs, [])
    else fetchAndStoreDocs w crate version fs
  | none => fetchAndStoreDocs w crate version fs

/-- `read_cargo_lock_impl` (src/core.py): an absent file or a file whose
basename is not exactly `Cargo.lock` yields the empty mapping (no exception
surfaces); otherwise the content is parsed.  The file is modelled as its
basename plus optional content. -/
def read_cargo_lock_impl (fileName : String) (fileContent : Option String) :
    List (String × String) :=
  match fileContent with
  | none => []
  | some content => if fileName ≠ "Cargo.lock" then [] else parse_cargo_lock content

/-- One iteration of the dependency loop of
`fetch_and_save_project_docs_impl` (src/core.py): fetch (possibly from
cache) via `fetch_crate_docs_impl`; when the docs are non-empty, save them
to disk — unconditionally, even when they came from the cache — and record
the crate's path when the save returned one. -/
def processDependency (w : World) (st : CacheFS × List (String × String) × List Event)
    (dep : String × String) : CacheFS × List (String × String) × List Event :=
  let r := fetch_crate_docs_impl w dep.1 dep.2 st.1
  if r.1 ≠ [] then
    let saved := save_docs_to_disk dep.1 dep.2 r.1 r.2.1
    let acc1 := if saved.2 ≠ "" then dictInsert st.2.1 dep.1 saved.2 else st.2.1
    (saved.1, acc1, st.2.2 ++ r.2.2 ++ [Event.store dep.1 dep.2])
  else (r.2.1, st.2.1, st.2.2 ++ r.2.2)

/-- The dependency loop of `fetch_and_save_project_docs_impl` over an
already-parsed dependency list: an empty list returns the empty mapping at
once; otherwise only the first 5 dependencies, in manifest order, are
processed (`list(dependencies.items())[:5]`). -/
def runWorkflowDeps (w : World) (fs : CacheFS) (deps : List (String × String)) :
    List (String × String) × CacheFS × List Event :=
  if deps = [] then ([], fs, [])
  else
    let st := (deps.take 5).foldl (processDependency w) (fs, [], [])
    (st.2.1, st.1, st.2.2)

/-- `fetch_and_save_project_docs_impl` (src/core.py): read and parse the
manifest, then run the dependency loop; returns the accumulated
crate ↦ saved-path mapping, the final cache state and the event trace. -/
def fetch_and_save_project_docs_impl (w : World) (fileName : String)
    (fileContent : Option String) (fs : CacheFS) :
    List (String × String) × CacheFS × List Event :=
  runWorkflowDeps w fs (read_cargo_lock_impl fileName fileContent)

/-- A manifest with the single dependency serde 1.0.0. -/
def manifestSerde : String := "[[package]]\nname = \"serde\"\nversion = \"1.0.0\"\n"

/-- A cache state holding a previously stored entry for serde 1.0.0 with the
single section `index`. -/
def fsSerde : CacheFS := (save_docs_to_disk "serde" "1.0.0" [("index", "D")] []).1

/-! ## Theorems -/

/-! ### Parser lemmas -/

theorem startswith_name_not_version (l : String)
    (h : startswith l "name = " = true) : startswith l "version = " = false := by
  unfold startswith at *
  rw [List.isPrefixOf_iff_prefix] at h
  rw [Bool.eq_false_iff]
  intro hv
  rw [List.isPrefixOf_iff_prefix] at hv
  obtain ⟨t1, e1⟩ := h
  obtain ⟨t2, e2⟩ := hv
  have hn7 : "name = ".data = ['n', 'a', 'm', 'e', ' ', '=', ' '] := rfl
  have hv9 : "version = ".data = ['v', 'e', 'r', 's', 'i', 'o', 'n', ' ', '=', ' '] := rfl
  rw [hn7] at e1
  rw [hv9] at e2
  rw [← e1] at e2
  simp at e2

theorem startswith_version_not_name (l : String)
    (h : startswith l "version = " = true) : startswith l "name = " = false := by
  unfold startswith at *
  rw [List.isPrefixOf_iff_prefix] at h
  rw [Bool.eq_false_iff]
  intro hn
  rw [List.isPrefixOf_iff_prefix] at hn
  obtain ⟨t1, e1⟩ := h
  obtain ⟨t2, e2⟩ := hn
  have hn7 : "name = ".data = ['n', 'a', 'm', 'e', ' ', '=', ' '] := rfl
  have hv9 : "version = ".data = ['v', 'e', 'r', 's', 'i', 'o', 'n', ' ', '=', ' '] := rfl
  rw [hn7] at e2
  rw [hv9] at e1
  rw [← e1] at e2
  simp at e2

theorem scanNV_eq_lastOpt (lines : List String) :
    ∀ n₀ v₀, scanNV (n₀, v₀) lines
      = (lastOpt (nameValues lines) n₀, lastOpt (versionValues lines) v₀) := by
  induction lines with
  | nil => intro n₀ v₀; rfl
  | cons line rest ih =>
    intro n₀ v₀
    by_cases hn : startswith (pyStrip line) "name = " = true
    · have hv := startswith_name_not_version _ hn
      simp only [scanNV, nameValues, versionValues, List.map_cons, List.filter_cons, hn, hv,
        Bool.false_eq_true, if_true, if_false, List.map_cons]
      rw [ih]
      simp [nameValues, versionValues, lastOpt]
    · by_cases hv : startswith (pyStrip line) "version = " = true
      · have hn' := startswith_version_not_name _ hv
        simp only [scanNV, nameValues, versionValues, List.map_cons, List.filter_cons, hn', hv,
          Bool.false_eq_true, if_true, if_false, List.map_cons]
        rw [ih]
        simp [nameValues, versionValues, lastOpt]
      · simp only [scanNV, nameValues, versionValues, List.map_cons, List.filter_cons,
          Bool.eq_false_iff.mpr hn, Bool.eq_false_iff.mpr hv]
        simp only [Bool.false_eq_true, if_false]
        rw [ih]
        simp [nameValues, versionValues]

theorem sectionPair_eq_spec (sec : String) : sectionPair sec = specSectionPair sec := by
  unfold sectionPair specSectionPair
  rw [scanNV_eq_lastOpt]

/-- C4: `parse_cargo_lock` is a total function (it never raises); each
`[[package]]` block containing both a name line and a version line (with
non-empty values) contributes its pair, assembled with last-write-wins map
semantics and first-occurrence key order (`specParse`, built from
`dictInsert`); blocks lacking either field contribute nothing; and parsing
the empty string or text with no `[[package]]` block yields an empty mapping.
The last two conjuncts exercise the end-to-end example and the
last-write-wins overwrite on a duplicated package name. -/
theorem claim_C4_parse_cargo_lock :
    (∀ content, parse_cargo_lock content = specParse content)
    ∧ parse_cargo_lock "" = []
    ∧ parse_cargo_lock "no blocks here" = []
    ∧ parse_cargo_lock "[[package]]\nname = \"serde\"\nversion = \"1.0.0\"\n\n[[package]]\nname = \"tokio\"\nversion = \"1.0\"\n"
        = [("serde", "1.0.0"), ("tokio", "1.0")]
    ∧ parse_cargo_lock "[[package]]\nname = \"serde\"\nversion = \"1.0.0\"\n\n[[package]]\nname = \"serde\"\nversion = \"2.0.0\"\n"
        = [("serde", "2.0.0")] := by
  refine ⟨fun content => ?_, by decide, by decide, by decide, by decide⟩
  unfold parse_cargo_lock specParse
  have h : (fun (deps : List (String × String)) sec =>
      if startswith (pyStrip sec) "[[package]]" then
        match sectionPair sec with
        | some (n, v) => dictInsert deps n v
        | none => deps
      else deps)
      = (fun (deps : List (String × String)) sec =>
      if startswith (pyStrip sec) "[[package]]" then
        match specSectionPair sec with
        | some (n, v) => dictInsert deps n v
        | none => deps
      else deps) := by
    funext deps sec
    rw [sectionPair_eq_spec]
  rw [h]

/-! ### Dict lemmas -/

theorem str_ext {s t : String} (h : s.data = t.data) : s = t := by
  cases s
  cases t
  congr 1

theorem str_data_ne {s : String} (h : s ≠ "") : s.data ≠ [] := by
  intro hd
  exact h (str_ext (by simpa using hd))

theorem append_md_cancel {s t : String} (h : s ++ ".md" = t ++ ".md") : s = t := by
  apply str_ext
  have hd := congrArg String.data h
  rw [String.data_append, String.data_append] at hd
  exact List.append_cancel_right hd

theorem dictLookup_dictInsert_self {α β : Type} [DecidableEq α]
    (d : List (α × β)) (k : α) (v : β) :
    dictLookup (dictInsert d k v) k = some v := by
  induction d with
  | nil => simp [dictInsert, dictLookup]
  | cons p d ih =>
    by_cases h : p.1 = k
    · simp [dictInsert, dictLookup, h]
    · simp [dictInsert, dictLookup, h, ih]

theorem dictLookup_dictInsert_ne {α β : Type} [DecidableEq α]
    (d : List (α × β)) (k a : α) (v : β) (h : a ≠ k) :
    dictLookup (dictInsert d k v) a = dictLookup d a := by
  have h' : ¬ k = a := fun he => h he.symm
  induction d with
  | nil => simp [dictInsert, dictLookup, h']
  | cons p d ih =>
    by_cases hp : p.1 = k
    · simp [dictInsert, dictLookup, hp, h']
    · simp only [dictInsert, hp, if_false]
      by_cases ha : p.1 = a <;> simp [dictLookup, ha, ih]

theorem keys_dictInsert {α β : Type} [DecidableEq α] (d : List (α × β)) (k : α) (v : β) :
    (dictInsert d k v).map Prod.fst
      = if k ∈ d.map Prod.fst then d.map Prod.fst else d.map Prod.fst ++ [k] := by
  induction d with
  | nil => simp [dictInsert]
  | cons p d ih =>
    by_cases h : p.1 = k
    · simp [dictInsert, h]
    · have h' : ¬ k = p.1 := fun he => h he.symm
      simp only [dictInsert, h, if_false, List.map_cons, ih]
      by_cases hm : k ∈ d.map Prod.fst <;> simp [hm, h']

theorem mem_keys_dictInsert {α β : Type} [DecidableEq α]
    (d : List (α × β)) (k a : α) (v : β) :
    (a ∈ (dictInsert d k v).map Prod.fst) ↔ (a ∈ d.map Prod.fst ∨ a = k) := by
  rw [keys_dictInsert]
  by_cases hm : k ∈ d.map Prod.fst
  · rw [if_pos hm]
    constructor
    · exact fun h => Or.inl h
    · rintro (h | rfl)
      · exact h
      · exact hm
  · rw [if_neg hm]
    simp only [List.mem_append, List.mem_singleton]

theorem length_dictInsert_le {α β : Type} [DecidableEq α] (d : List (α × β)) (k : α) (v : β) :
    (dictInsert d k v).length ≤ d.length + 1 := by
  induction d with
  | nil => simp [dictInsert]
  | cons p d ih =>
    by_cases h : p.1 = k
    · simp [dictInsert, h]
    · simpa [dictInsert, h] using ih

theorem length_dictInsert_of_mem {α β : Type} [DecidableEq α] :
    ∀ (d : List (α × β)) (k : α) (v : β), k ∈ d.map Prod.fst →
      (dictInsert d k v).length = d.length
  | [], k, v, h => by simp at h
  | p :: d, k, v, h => by
    by_cases hp : p.1 = k
    · simp [dictInsert, hp]
    · have hm : k ∈ d.map Prod.fst := by
        rw [List.map_cons] at h
        rcases List.mem_cons.mp h with h1 | h2
        · exact absurd h1.symm hp
        · exact h2
      simp [dictInsert, hp, length_dictInsert_of_mem d k v hm]

theorem dictInsert_not_mem {α β : Type} [DecidableEq α] :
    ∀ (d : List (α × β)) (k : α) (v : β), k ∉ d.map Prod.fst →
      dictInsert d k v = d ++ [(k, v)]
  | [], k, v, _ => by simp [dictInsert]
  | p :: d, k, v, h => by
    have h1 : ¬ p.1 = k := fun he => h (by simp [he])
    have h2 : k ∉ d.map Prod.fst := fun hm => h (by simp [hm])
    simp [dictInsert, h1, dictInsert_not_mem d k v h2]

theorem nodup_keys_dictInsert {α β : Type} [DecidableEq α]
    (d : List (α × β)) (k : α) (v : β) (h : (d.map Prod.fst).Nodup) :
    ((dictInsert d k v).map Prod.fst).Nodup := by
  rw [keys_dictInsert]
  by_cases hm : k ∈ d.map Prod.fst
  · simpa [hm] using h
  · simp only [hm, if_false]
    rw [List.nodup_append]
    refine ⟨h, List.nodup_singleton k, ?_⟩
    intro a ha hb
    rw [List.mem_singleton] at hb
    exact hm (hb ▸ ha)

theorem dictInsert_of_mem_eq {α β : Type} [DecidableEq α] :
    ∀ (d : List (α × β)) (k : α) (v : β),
      (d.map Prod.fst).Nodup → (k, v) ∈ d → dictInsert d k v = d
  | [], k, v, _, hm => by simp at hm
  | p :: d, k, v, hnd, hm => by
    rcases List.mem_cons.mp hm with he | hm2
    · rw [← he]
      simp [dictInsert]
    · have hk : k ∈ d.map Prod.fst := List.mem_map_of_mem Prod.fst hm2
      have hnd2 : (p.1 ∉ d.map Prod.fst) ∧ (d.map Prod.fst).Nodup := by
        rw [List.map_cons, List.nodup_cons] at hnd
        exact hnd
      have hp : ¬ p.1 = k := fun he => hnd2.1 (he ▸ hk)
      simp [dictInsert, hp, dictInsert_of_mem_eq d k v hnd2.2 hm2]

theorem mem_of_dictLookup_eq_some {α β : Type} [DecidableEq α] :
    ∀ {d : List (α × β)} {k : α} {v : β}, dictLookup d k = some v → (k, v) ∈ d
  | [], k, v, h => by simp [dictLookup] at h
  | p :: d, k, v, h => by
    by_cases hp : p.1 = k
    · simp only [dictLookup, hp, if_true, Option.some.injEq] at h
      exact List.mem_cons.mpr (Or.inl (by rw [← hp, ← h]))
    · simp only [dictLookup, hp, if_false] at h
      exact List.mem_cons_of_mem _ (mem_of_dictLookup_eq_some h)

theorem filter_key_dictInsert {α β : Type} [DecidableEq α]
    (d : List (α × β)) (k : α) (v : β) (q : α → Bool) (hq : q k = false) :
    (dictInsert d k v).filter (fun p => q p.1) = d.filter (fun p => q p.1) := by
  induction d with
  | nil => simp [dictInsert, List.filter_cons, hq]
  | cons p d ih =>
    by_cases hp : p.1 = k
    · simp [dictInsert, hp, List.filter_cons, hq]
    · simp only [dictInsert, hp, if_false, List.filter_cons]
      rw [ih]

theorem filter_key_eq_of_nodup {α β : Type} [DecidableEq α] :
    ∀ (d : List (α × β)) (n : α), (d.map Prod.fst).Nodup →
      d.filter (fun p => p.1 = n)
        = match dictLookup d n with
          | some v => [(n, v)]
          | none => []
  | [], n, _ => by simp [dictLookup]
  | p :: d, n, hnd => by
    have hnd2 : (p.1 ∉ d.map Prod.fst) ∧ (d.map Prod.fst).Nodup := by
      rw [List.map_cons, List.nodup_cons] at hnd
      exact hnd
    by_cases hp : p.1 = n
    · have hnm : n ∉ d.map Prod.fst := hp ▸ hnd2.1
      have hfe : d.filter (fun p => p.1 = n) = [] := by
        apply List.filter_eq_nil_iff.mpr
        intro a ha
        simp only [decide_eq_true_eq]
        intro he
        exact hnm (he ▸ List.mem_map_of_mem Prod.fst ha)
      have hpe : p = (n, p.2) := by
        rw [← hp]
      rw [List.filter_cons, if_pos (by simpa using hp), hfe]
      simp only [dictLookup, hp, if_true]
      exact congrArg (fun x => [x]) hpe
    · rw [List.filter_cons, if_neg (by simpa using hp)]
      simp only [dictLookup, hp, if_false]
      exact filter_key_eq_of_nodup d n hnd2.2

/-! ### Fold lemmas for dict-building -/

theorem lastOpt_cons {α : Type} (x : α) (xs : List α) (d : Option α) :
    lastOpt (x :: xs) d = lastOpt xs (some x) := rfl

theorem lastOpt_isSome {α : Type} :
    ∀ (l : List α) (x : α), (lastOpt l (some x)).isSome = true
  | [], _ => rfl
  | y :: l, x => by
    rw [lastOpt_cons]
    exact lastOpt_isSome l y

theorem foldl_dictInsert_lookup {α β : Type} [DecidableEq α] :
    ∀ (l : List (α × β)) (d0 : List (α × β)) (a : α),
      dictLookup (l.foldl (fun d p => dictInsert d p.1 p.2) d0) a
        = lastOpt ((l.filter (fun p => p.1 = a)).map Prod.snd) (dictLookup d0 a)
  | [], _, _ => rfl
  | p :: l, d0, a => by
    rw [List.foldl_cons]
    by_cases hp : p.1 = a
    · rw [foldl_dictInsert_lookup l (dictInsert d0 p.1 p.2) a, List.filter_cons,
        if_pos (by simpa using hp), List.map_cons, lastOpt_cons, hp,
        dictLookup_dictInsert_self]
    · rw [foldl_dictInsert_lookup l (dictInsert d0 p.1 p.2) a, List.filter_cons,
        if_neg (by simpa using hp),
        dictLookup_dictInsert_ne d0 p.1 a p.2 (fun he => hp he.symm)]

theorem foldl_dictInsert_mem_keys {α β : Type} [DecidableEq α] :
    ∀ (l : List (α × β)) (d0 : List (α × β)) (a : α),
      (a ∈ (l.foldl (fun d p => dictInsert d p.1 p.2) d0).map Prod.fst)
        ↔ (a ∈ d0.map Prod.fst ∨ a ∈ l.map Prod.fst)
  | [], d0, a => by simp
  | p :: l, d0, a => by
    rw [List.foldl_cons, foldl_dictInsert_mem_keys l (dictInsert d0 p.1 p.2) a,
      mem_keys_dictInsert]
    simp only [List.map_cons, List.mem_cons]
    tauto

theorem foldl_dictInsert_nodup {α β : Type} [DecidableEq α] :
    ∀ (l : List (α × β)) (d0 : List (α × β)), (d0.map Prod.fst).Nodup →
      ((l.foldl (fun d p => dictInsert d p.1 p.2) d0).map Prod.fst).Nodup
  | [], _, h => h
  | p :: l, d0, h => by
    rw [List.foldl_cons]
    exact foldl_dictInsert_nodup l _ (nodup_keys_dictInsert d0 p.1 p.2 h)

theorem foldl_dictInsert_length_le {α β : Type} [DecidableEq α] :
    ∀ (l : List (α × β)) (d0 : List (α × β)),
      (l.foldl (fun d p => dictInsert d p.1 p.2) d0).length ≤ d0.length + l.length
  | [], d0 => by simp
  | p :: l, d0 => by
    rw [List.foldl_cons]
    have h1 := foldl_dictInsert_length_le l (dictInsert d0 p.1 p.2)
    have h2 := length_dictInsert_le d0 p.1 p.2
    simp only [List.length_cons]
    omega

theorem foldl_dictInsert_length_lt_of_mem {α β : Type} [DecidableEq α] :
    ∀ (l : List (α × β)) (d0 : List (α × β)),
      (∃ p ∈ l, p.1 ∈ d0.map Prod.fst) →
      (l.foldl (fun d p => dictInsert d p.1 p.2) d0).length < d0.length + l.length
  | [], _, h => by simp at h
  | q :: l, d0, h => by
    rw [List.foldl_cons]
    rcases h with ⟨p, hpl, hpm⟩
    rcases List.mem_cons.mp hpl with he | hml
    · have hq : q.1 ∈ d0.map Prod.fst := he ▸ hpm
      have h1 := foldl_dictInsert_length_le l (dictInsert d0 q.1 q.2)
      have h2 := length_dictInsert_of_mem d0 q.1 q.2 hq
      simp only [List.length_cons]
      omega
    · have hpm2 : p.1 ∈ (dictInsert d0 q.1 q.2).map Prod.fst :=
        (mem_keys_dictInsert d0 q.1 p.1 q.2).mpr (Or.inl hpm)
      have h1 := foldl_dictInsert_length_lt_of_mem l (dictInsert d0 q.1 q.2) ⟨p, hml, hpm2⟩
      have h2 := length_dictInsert_le d0 q.1 q.2
      simp only [List.length_cons]
      omega

theorem foldl_dictInsert_length_lt {α β : Type} [DecidableEq α] :
    ∀ (l : List (α × β)) (d0 : List (α × β)), ¬ (l.map Prod.fst).Nodup →
      (l.foldl (fun d p => dictInsert d p.1 p.2) d0).length < d0.length + l.length
  | [], _, h => by simp at h
  | q :: l, d0, h => by
    rw [List.foldl_cons]
    by_cases hm : q.1 ∈ l.map Prod.fst
    · obtain ⟨p, hpl, hpe⟩ := List.mem_map.mp hm
      have hpm : p.1 ∈ (dictInsert d0 q.1 q.2).map Prod.fst :=
        (mem_keys_dictInsert d0 q.1 p.1 q.2).mpr (Or.inr hpe)
      have h1 := foldl_dictInsert_length_lt_of_mem l (dictInsert d0 q.1 q.2) ⟨p, hpl, hpm⟩
      have h2 := length_dictInsert_le d0 q.1 q.2
      simp only [List.length_cons]
      omega
    · have hnn : ¬ (l.map Prod.fst).Nodup := by
        intro hn
        apply h
        rw [List.map_cons]
        exact List.nodup_cons.mpr ⟨hm, hn⟩
      have h1 := foldl_dictInsert_length_lt l (dictInsert d0 q.1 q.2) hnn
      have h2 := length_dictInsert_le d0 q.1 q.2
      simp only [List.length_cons]
      omega

theorem foldl_dictInsert_append {α β : Type} [DecidableEq α] :
    ∀ (l : List (α × β)) (d0 : List (α × β)),
      (∀ p ∈ l, p.1 ∉ d0.map Prod.fst) → (l.map Prod.fst).Nodup →
      l.foldl (fun d p => dictInsert d p.1 p.2) d0 = d0 ++ l
  | [], d0, _, _ => by simp
  | q :: l, d0, hdisj, hnd => by
    rw [List.foldl_cons]
    have hq : q.1 ∉ d0.map Prod.fst := hdisj q (List.mem_cons_self q l)
    rw [dictInsert_not_mem d0 q.1 q.2 hq]
    have hnd2 : (q.1 ∉ l.map Prod.fst) ∧ (l.map Prod.fst).Nodup := by
      rw [List.map_cons, List.nodup_cons] at hnd
      exact hnd
    have hdisj2 : ∀ p ∈ l, p.1 ∉ (d0 ++ [(q.1, q.2)]).map Prod.fst := by
      intro p hp
      rw [List.map_append]
      intro hmem
      rcases List.mem_append.mp hmem with h1 | h2
      · exact hdisj p (List.mem_cons_of_mem q hp) h1
      · rw [List.map_singleton, List.mem_singleton] at h2
        exact hnd2.1 (h2 ▸ List.mem_map_of_mem Prod.fst hp)
    rw [foldl_dictInsert_append l (d0 ++ [(q.1, q.2)]) hdisj2 hnd2.2]
    simp

theorem foldl_dictInsert_id {α β : Type} [DecidableEq α] :
    ∀ (l : List (α × β)) (d0 : List (α × β)),
      (d0.map Prod.fst).Nodup → (∀ p ∈ l, p ∈ d0) →
      l.foldl (fun d p => dictInsert d p.1 p.2) d0 = d0
  | [], _, _, _ => rfl
  | q :: l, d0, hnd, hmem => by
    rw [List.foldl_cons]
    have hq : (q.1, q.2) ∈ d0 := hmem q (List.mem_cons_self q l)
    rw [dictInsert_of_mem_eq d0 q.1 q.2 hnd hq]
    exact foldl_dictInsert_id l d0 hnd (fun p hp => hmem p (List.mem_cons_of_mem q hp))

/-! ### Sanitization and stem lemmas -/

theorem endsWithMd_append (s : String) : endsWithMd (s ++ ".md") = true := by
  unfold endsWithMd
  rw [String.data_append, show ".md".data = ['.', 'm', 'd'] from rfl, List.reverse_append,
    show (['.', 'm', 'd'] : List Char).reverse = ['d', 'm', '.'] from rfl]
  rfl

theorem fileStem_append_md (s : String) (h : s ≠ "") : fileStem (s ++ ".md") = s := by
  have hd : s.data ≠ [] := str_data_ne h
  rcases he : s.data.reverse with _ | ⟨c, rest⟩
  · exact absurd (by simpa using congrArg List.reverse he) hd
  · have hdata : (s ++ ".md").data.reverse = 'd' :: 'm' :: '.' :: c :: rest := by
      rw [String.data_append, show ".md".data = ['.', 'm', 'd'] from rfl, List.reverse_append,
        he]
      rfl
    unfold fileStem
    rw [hdata]
    show (⟨(c :: rest).reverse⟩ : String) = s
    apply str_ext
    show (c :: rest).reverse = s.data
    rw [← he, List.reverse_reverse]

theorem sanitizeKey_data (s : String) : (sanitizeKey s).data = s.data.map sanChar := rfl

theorem sanitizeKey_ne_empty {s : String} (h : s ≠ "") : sanitizeKey s ≠ "" := by
  intro he
  apply str_data_ne h
  have hd := congrArg String.data he
  rw [sanitizeKey_data] at hd
  have hmap : s.data.map sanChar = [] := hd
  simpa using hmap

theorem map_eq_of_ne {α β : Type} :
    ∀ {l1 l2 : List α} (f : α → β), l1 ≠ l2 → l1.map f = l2.map f →
      ∃ a b, a ∈ l1 ∧ a ≠ b ∧ f a = f b
  | [], [], _, hne, _ => absurd rfl hne
  | [], _ :: _, _, _, hm => by simp at hm
  | _ :: _, [], _, _, hm => by simp at hm
  | a :: l1, b :: l2, f, hne, hm => by
    rw [List.map_cons, List.map_cons] at hm
    injection hm with h1 h2
    by_cases hab : a = b
    · have hl : l1 ≠ l2 := by
        intro he
        exact hne (by rw [hab, he])
      obtain ⟨x, y, hx, hxy, hf⟩ := map_eq_of_ne f hl h2
      exact ⟨x, y, List.mem_cons_of_mem a hx, hxy, hf⟩
    · exact ⟨a, b, List.mem_cons_self a l1, hab, h1⟩

theorem sanChar_eq_underscore {a b : Char} (hne : a ≠ b) (he : sanChar a = sanChar b) :
    sanChar a = '_' := by
  unfold sanChar at *
  by_cases ha : a ∈ reservedChars
  · simp [ha]
  · rw [if_neg ha] at he ⊢
    by_cases hb : b ∈ reservedChars
    · rw [if_pos hb] at he
      exact he
    · rw [if_neg hb] at he
      exact absurd he hne

theorem underscore_mem_of_collision {k1 k2 : String} (hne : k1 ≠ k2)
    (hcol : sanitizeKey k1 = sanitizeKey k2) : '_' ∈ (sanitizeKey k1).data := by
  have hd : k1.data ≠ k2.data := fun he => hne (str_ext he)
  have hm : k1.data.map sanChar = k2.data.map sanChar := by
    have hc := congrArg String.data hcol
    rwa [sanitizeKey_data, sanitizeKey_data] at hc
  obtain ⟨a, b, ha, hab, hf⟩ := map_eq_of_ne sanChar hd hm
  rw [sanitizeKey_data]
  have hu := sanChar_eq_underscore hab hf
  rw [← hu]
  exact List.mem_map_of_mem sanChar ha

theorem collision_ne_fixed {k1 k2 : String} (hne : k1 ≠ k2)
    (hcol : sanitizeKey k1 = sanitizeKey k2) :
    sanitizeKey k1 ≠ "README" ∧ sanitizeKey k1 ≠ ".md" ∧ sanitizeKey k1 ≠ "" := by
  have hu := underscore_mem_of_collision hne hcol
  refine ⟨?_, ?_, ?_⟩ <;> intro he <;> rw [he] at hu <;> revert hu <;> decide

theorem storeContentFiles_eq_foldl (docs files0 : List (String × String)) :
    storeContentFiles docs files0
      = (docs.map (fun kv => (sanitizeKey kv.1 ++ ".md", kv.2))).foldl
          (fun d p => dictInsert d p.1 p.2) files0 := by
  unfold storeContentFiles
  rw [List.foldl_map]

theorem filter_dictInsert_false {α β : Type} [DecidableEq α]
    (d : List (α × β)) (k : α) (v : β) (q : α × β → Bool)
    (hq : ∀ w : β, q (k, w) = false) :
    (dictInsert d k v).filter q = d.filter q := by
  induction d with
  | nil => simp [dictInsert, List.filter_cons, hq v]
  | cons p d ih =>
    by_cases hp : p.1 = k
    · have hqp : q p = false := by
        rw [show p = (k, p.2) from by rw [← hp]]
        exact hq p.2
      simp [dictInsert, hp, List.filter_cons, hq v, hqp]
    · simp only [dictInsert, hp, if_false, List.filter_cons]
      rw [ih]

theorem load_store_roundtrip (crate version : String) (docs : List (String × String))
    (hnd : (docs.map Prod.fst).Nodup)
    (hne : ∀ kv ∈ docs, kv.1 ≠ "")
    (hinj : ∀ kv1 ∈ docs, ∀ kv2 ∈ docs, sanitizeKey kv1.1 = sanitizeKey kv2.1 → kv1.1 = kv2.1) :
    load_cached_docs crate version (save_docs_to_disk crate version docs []).1
      = some ((docs.filter (fun kv => decide (sanitizeKey kv.1 ≠ "README"))).map
          (fun kv => (sanitizeKey kv.1, kv.2))) := by
  have hdocs : docs.Nodup := hnd.of_map
  have hkinj : ∀ kv1 ∈ docs, ∀ kv2 ∈ docs, kv1.1 = kv2.1 → kv1 = kv2 :=
    List.inj_on_of_nodup_map hnd
  have hmn : (docs.map (fun kv => sanitizeKey kv.1 ++ ".md")).Nodup := by
    apply List.Nodup.map_on ?_ hdocs
    intro x hx y hy hxy
    exact hkinj x hx y hy (hinj x hx y hy (append_md_cancel hxy))
  have hcontent : storeContentFiles docs []
      = docs.map (fun kv => (sanitizeKey kv.1 ++ ".md", kv.2)) := by
    rw [storeContentFiles_eq_foldl]
    have happ := foldl_dictInsert_append
      (docs.map (fun kv => (sanitizeKey kv.1 ++ ".md", kv.2))) []
      (by intro p hp; simp)
      (by rw [List.map_map]; exact hmn)
    simpa using happ
  have hfilter : (dictInsert (storeContentFiles docs []) "README.md"
        (indexContent crate version docs)).filter
        (fun p => endsWithMd p.1 && p.1 ≠ "README.md")
      = (docs.filter (fun kv => decide (sanitizeKey kv.1 ≠ "README"))).map
          (fun kv => (sanitizeKey kv.1 ++ ".md", kv.2)) := by
    rw [filter_dictInsert_false _ _ _ _ (by intro w; simp), hcontent, List.filter_map]
    congr 1
    apply List.filter_congr
    intro kv hkv
    show (endsWithMd (sanitizeKey kv.1 ++ ".md")
        && decide (sanitizeKey kv.1 ++ ".md" ≠ "README.md"))
        = decide (sanitizeKey kv.1 ≠ "README")
    rw [endsWithMd_append, Bool.true_and]
    by_cases hsr : sanitizeKey kv.1 = "README"
    · simp [hsr]
    · have hmd : sanitizeKey kv.1 ++ ".md" ≠ "README.md" := by
        intro he
        exact hsr (append_md_cancel (he.trans rfl))
      simp [hsr, hmd]
  have hstems : ((docs.filter (fun kv => decide (sanitizeKey kv.1 ≠ "README"))).map
        (fun kv => (sanitizeKey kv.1 ++ ".md", kv.2))).map
        (fun p => (fileStem p.1, p.2))
      = (docs.filter (fun kv => decide (sanitizeKey kv.1 ≠ "README"))).map
          (fun kv => (sanitizeKey kv.1, kv.2)) := by
    rw [List.map_map]
    apply List.map_congr_left
    intro kv hkv
    have hkd : kv ∈ docs := List.mem_of_mem_filter hkv
    have hsne : sanitizeKey kv.1 ≠ "" := sanitizeKey_ne_empty (hne kv hkd)
    show (fileStem (sanitizeKey kv.1 ++ ".md"), kv.2) = (sanitizeKey kv.1, kv.2)
    rw [fileStem_append_md _ hsne]
  have hfinal : dictOf ((docs.filter (fun kv => decide (sanitizeKey kv.1 ≠ "README"))).map
        (fun kv => (sanitizeKey kv.1, kv.2)))
      = (docs.filter (fun kv => decide (sanitizeKey kv.1 ≠ "README"))).map
          (fun kv => (sanitizeKey kv.1, kv.2)) := by
    unfold dictOf
    have hnodup : (((docs.filter (fun kv => decide (sanitizeKey kv.1 ≠ "README"))).map
        (fun kv => (sanitizeKey kv.1, kv.2))).map Prod.fst).Nodup := by
      rw [List.map_map]
      apply List.Nodup.map_on ?_ (hdocs.filter _)
      intro x hx y hy hxy
      have hxd : x ∈ docs := List.mem_of_mem_filter hx
      have hyd : y ∈ docs := List.mem_of_mem_filter hy
      exact hkinj x hxd y hyd (hinj x hxd y hyd hxy)
    have happ := foldl_dictInsert_append
      ((docs.filter (fun kv => decide (sanitizeKey kv.1 ≠ "README"))).map
        (fun kv => (sanitizeKey kv.1, kv.2))) []
      (by intro p hp; simp) hnodup
    simpa using happ
  simp only [load_cached_docs, save_docs_to_disk, dictInsert, dictLookup, if_pos,
    List.getD, Option.getD]
  rw [hfilter, hstems, hfinal]

theorem load_fresh_store_eq (crate version : String) (docs : List (String × String)) :
    load_cached_docs crate version (save_docs_to_disk crate version docs []).1
      = some (dictOf (((dictInsert (storeContentFiles docs []) "README.md"
          (indexContent crate version docs)).filter
          (fun p => endsWithMd p.1 && p.1 ≠ "README.md")).map
          (fun p => (fileStem p.1, p.2)))) := by
  simp only [load_cached_docs, save_docs_to_disk, dictInsert, dictLookup, if_pos,
    List.getD, Option.getD]

theorem fresh_store_length_lt (crate version : String) (docs : List (String × String))
    (hdup : ¬ (docs.map (fun kv => sanitizeKey kv.1 ++ ".md")).Nodup) :
    (dictOf (((dictInsert (storeContentFiles docs []) "README.md"
        (indexContent crate version docs)).filter
        (fun p => endsWithMd p.1 && p.1 ≠ "README.md")).map
        (fun p => (fileStem p.1, p.2)))).length < docs.length := by
  have hfe : (dictInsert (storeContentFiles docs []) "README.md"
        (indexContent crate version docs)).filter
        (fun p => endsWithMd p.1 && p.1 ≠ "README.md")
      = (storeContentFiles docs []).filter
        (fun p => endsWithMd p.1 && p.1 ≠ "README.md") :=
    filter_dictInsert_false _ _ _ _ (by intro w; simp)
  rw [hfe]
  have l1 : (dictOf (((storeContentFiles docs []).filter
        (fun p => endsWithMd p.1 && p.1 ≠ "README.md")).map
        (fun p => (fileStem p.1, p.2)))).length
      ≤ (((storeContentFiles docs []).filter
        (fun p => endsWithMd p.1 && p.1 ≠ "README.md")).map
        (fun p => (fileStem p.1, p.2))).length := by
    unfold dictOf
    simpa using foldl_dictInsert_length_le (((storeContentFiles docs []).filter
      (fun p => endsWithMd p.1 && p.1 ≠ "README.md")).map
      (fun p => (fileStem p.1, p.2))) []
  rw [List.length_map] at l1
  have l2 : ((storeContentFiles docs []).filter
      (fun p => endsWithMd p.1 && p.1 ≠ "README.md")).length
      ≤ (storeContentFiles docs []).length := List.length_filter_le _ _
  have l3 : (storeContentFiles docs []).length < docs.length := by
    rw [storeContentFiles_eq_foldl]
    have hlt := foldl_dictInsert_length_lt
      (docs.map (fun kv => (sanitizeKey kv.1 ++ ".md", kv.2))) []
      (by rw [List.map_map]; exact hdup)
    simpa using hlt
  omega

theorem fresh_store_lookup (crate version : String) (docs : List (String × String))
    (s : String) (hsR : s ≠ "README") (hsM : s ≠ ".md") (hsE : s ≠ "") :
    dictLookup (dictOf (((dictInsert (storeContentFiles docs []) "README.md"
        (indexContent crate version docs)).filter
        (fun p => endsWithMd p.1 && p.1 ≠ "README.md")).map
        (fun p => (fileStem p.1, p.2)))) s
      = lastOpt ((docs.filter (fun kv => decide (sanitizeKey kv.1 = s))).map Prod.snd)
          none := by
  have hcfnodup : ((storeContentFiles docs []).map Prod.fst).Nodup := by
    rw [storeContentFiles_eq_foldl]
    exact foldl_dictInsert_nodup _ [] (by simp)
  have hlook : dictLookup (storeContentFiles docs []) (s ++ ".md")
      = lastOpt ((docs.filter (fun kv => decide (sanitizeKey kv.1 = s))).map Prod.snd)
          none := by
    rw [storeContentFiles_eq_foldl, foldl_dictInsert_lookup]
    have hfc : (docs.map (fun kv => (sanitizeKey kv.1 ++ ".md", kv.2))).filter
        (fun p => p.1 = s ++ ".md")
        = (docs.filter (fun kv => decide (sanitizeKey kv.1 = s))).map
            (fun kv => (sanitizeKey kv.1 ++ ".md", kv.2)) := by
      rw [List.filter_map]
      congr 1
      apply List.filter_congr
      intro kv _
      show decide (sanitizeKey kv.1 ++ ".md" = s ++ ".md") = decide (sanitizeKey kv.1 = s)
      by_cases hss : sanitizeKey kv.1 = s
      · simp [hss]
      · have hne2 : ¬ sanitizeKey kv.1 ++ ".md" = s ++ ".md" :=
          fun he => hss (append_md_cancel he)
        simp [hss, hne2]
    rw [hfc, List.map_map]
    rfl
  have hfe : (dictInsert (storeContentFiles docs []) "README.md"
        (indexContent crate version docs)).filter
        (fun p => endsWithMd p.1 && p.1 ≠ "README.md")
      = (storeContentFiles docs []).filter
        (fun p => endsWithMd p.1 && p.1 ≠ "README.md") :=
    filter_dictInsert_false _ _ _ _ (by intro w; simp)
  rw [hfe]
  unfold dictOf
  rw [foldl_dictInsert_lookup, List.filter_map]
  have hq : ∀ p ∈ storeContentFiles docs [],
      (((fun p : String × String => decide (p.1 = s)) ∘ (fun p => (fileStem p.1, p.2))) p
        && (endsWithMd p.1 && decide (p.1 ≠ "README.md")))
      = decide (p.1 = s ++ ".md") := by
    intro p hp
    have hk : p.1 ∈ (storeContentFiles docs []).map Prod.fst :=
      List.mem_map_of_mem Prod.fst hp
    rw [storeContentFiles_eq_foldl] at hk
    rcases (foldl_dictInsert_mem_keys _ [] p.1).mp hk with h0 | hm
    · simp at h0
    · rw [List.map_map] at hm
      obtain ⟨kv, hkv, hpe⟩ := List.mem_map.mp hm
      simp only [Function.comp] at hpe
      by_cases hz : sanitizeKey kv.1 = ""
      · have hpmd : p.1 = ".md" := by
          rw [← hpe, hz]
          rfl
        have hL : decide (fileStem p.1 = s) = false := by
          apply decide_eq_false
          rw [hpmd, show fileStem ".md" = ".md" from rfl]
          exact fun he => hsM he.symm
        have hR : decide (p.1 = s ++ ".md") = false := by
          apply decide_eq_false
          rw [hpmd]
          intro he
          apply hsE
          exact (append_md_cancel (show ("" : String) ++ ".md" = s ++ ".md" from he)).symm
        show (decide (fileStem p.1 = s) && (endsWithMd p.1 && decide (p.1 ≠ "README.md")))
          = decide (p.1 = s ++ ".md")
        rw [hL, hR, Bool.false_and]
      · have hfs : fileStem p.1 = sanitizeKey kv.1 := by
          rw [← hpe]
          exact fileStem_append_md _ hz
        show (decide (fileStem p.1 = s) && (endsWithMd p.1 && decide (p.1 ≠ "README.md")))
          = decide (p.1 = s ++ ".md")
        by_cases hss : sanitizeKey kv.1 = s
        · have h1 : decide (fileStem p.1 = s) = true := by
            apply decide_eq_true
            rw [hfs, hss]
          have h2 : endsWithMd p.1 = true := by
            rw [← hpe]
            exact endsWithMd_append _
          have h3 : decide (p.1 ≠ "README.md") = true := by
            apply decide_eq_true
            rw [← hpe]
            intro he
            apply hsR
            rw [← hss]
            exact append_md_cancel
              (show sanitizeKey kv.1 ++ ".md" = "README" ++ ".md" from he)
          have h4 : decide (p.1 = s ++ ".md") = true := by
            apply decide_eq_true
            rw [← hpe, hss]
          rw [h1, h2, h3, h4]
          rfl
        · have h1 : decide (fileStem p.1 = s) = false := by
            apply decide_eq_false
            rw [hfs]
            exact hss
          have h4 : decide (p.1 = s ++ ".md") = false := by
            apply decide_eq_false
            intro he
            apply hss
            apply append_md_cancel
            rw [hpe]
            exact he
          rw [h1, h4, Bool.false_and]
  rw [List.filter_filter, List.filter_congr hq, filter_key_eq_of_nodup _ _ hcfnodup]
  rcases hR : dictLookup (storeContentFiles docs []) (s ++ ".md") with _ | v
  · rw [← hlook, hR]
    rfl
  · rw [← hlook, hR]
    rfl

theorem lastOpt_isSome_of_ne_nil {α : Type} {l : List α} (h : l ≠ []) (d : Option α) :
    (lastOpt l d).isSome = true := by
  cases l with
  | nil => exact absurd rfl h
  | cons x xs =>
    rw [lastOpt_cons]
    exact lastOpt_isSome xs x

/-- C5 counterexample: storing the DocumentSet `{"a/b": "x", "a:b": "y"}` —
two distinct keys whose sanitized filenames coincide — and loading it back
yields only `{"a_b": "y"}`: the sanitized form of the stored key `"a/b"` is
`"a_b"`, but its stored content `"x"` is gone (the later key's content `"y"`
is returned), so the claim that load returns every stored key's sanitized
form with identical content value is false. -/
theorem claim_C5_counterexample :
    load_cached_docs "pkg" "1.0"
        (save_docs_to_disk "pkg" "1.0" [("a/b", "x"), ("a:b", "y")] []).1
      = some [("a_b", "y")]
    ∧ sanitizeKey "a/b" = "a_b" ∧ sanitizeKey "a:b" = "a_b" ∧ ("y" : String) ≠ "x" := by
  decide

/-- C5 (amended): for every package name, version and DocumentSet whose keys
are non-empty and have pairwise-distinct sanitized forms, `store` followed by
`load` for the same package/version returns the mapping carrying each stored
key's sanitized form (reserved characters ``< > : " / \ | ? *`` replaced by
`_`) with the identical content value, excluding any key literally named as
the stem of the index file (`"README"`); keys without reserved characters
round-trip unchanged since sanitization is then the identity. -/
theorem claim_C5_store_load_roundtrip (crate version : String)
    (docs : List (String × String))
    (hnd : (docs.map Prod.fst).Nodup)
    (hne : ∀ kv ∈ docs, kv.1 ≠ "")
    (hinj : ∀ kv1 ∈ docs, ∀ kv2 ∈ docs,
      sanitizeKey kv1.1 = sanitizeKey kv2.1 → kv1.1 = kv2.1) :
    load_cached_docs crate version (save_docs_to_disk crate version docs []).1
      = some ((docs.filter (fun kv => decide (sanitizeKey kv.1 ≠ "README"))).map
          (fun kv => (sanitizeKey kv.1, kv.2))) :=
  load_store_roundtrip crate version docs hnd hne hinj

theorem claim_C5_store_load_roundtrip_witness :
    load_cached_docs "pkg" "1.0" (save_docs_to_disk "pkg" "1.0" [("a/b", "x")] []).1
      = some [("a_b", "x")] := by
  have h := claim_C5_store_load_roundtrip "pkg" "1.0" [("a/b", "x")]
    (by decide) (by decide) (by decide)
  rw [h]
  decide

/-- C10: for every DocumentSet containing two distinct keys whose sanitized
filenames coincide, `store` writes a single content file for them whose
content is that of the later key in iteration order, so a subsequent `load`
returns strictly fewer entries than were stored, and looking up the shared
sanitized stem yields the last-written content (the value of the last key
whose sanitized form is that stem). -/
theorem claim_C10_sanitize_collision (crate version : String)
    (docs : List (String × String)) (k1 k2 : String)
    (hnd : (docs.map Prod.fst).Nodup)
    (h1 : k1 ∈ docs.map Prod.fst) (h2 : k2 ∈ docs.map Prod.fst)
    (hne : k1 ≠ k2) (hcol : sanitizeKey k1 = sanitizeKey k2) :
    ∃ loaded, load_cached_docs crate version (save_docs_to_disk crate version docs []).1
        = some loaded
      ∧ loaded.length < docs.length
      ∧ dictLookup loaded (sanitizeKey k1)
          = lastOpt ((docs.filter
              (fun kv => decide (sanitizeKey kv.1 = sanitizeKey k1))).map Prod.snd) none
      ∧ (lastOpt ((docs.filter
          (fun kv => decide (sanitizeKey kv.1 = sanitizeKey k1))).map Prod.snd)
          none).isSome = true := by
  obtain ⟨hsR, hsM, hsE⟩ := collision_ne_fixed hne hcol
  have hdup : ¬ (docs.map (fun kv => sanitizeKey kv.1 ++ ".md")).Nodup := by
    intro hnodup
    obtain ⟨a, ha, hak⟩ := List.mem_map.mp h1
    obtain ⟨b, hb, hbk⟩ := List.mem_map.mp h2
    have hfab : sanitizeKey a.1 ++ ".md" = sanitizeKey b.1 ++ ".md" := by
      rw [hak, hbk, hcol]
    have hinj2 : ∀ x ∈ docs, ∀ y ∈ docs,
        sanitizeKey x.1 ++ ".md" = sanitizeKey y.1 ++ ".md" → x = y :=
      List.inj_on_of_nodup_map hnodup
    have hab := hinj2 a ha b hb hfab
    exact hne ((hak.symm.trans (congrArg Prod.fst hab)).trans hbk)
  refine ⟨_, load_fresh_store_eq crate version docs,
    fresh_store_length_lt crate version docs hdup,
    fresh_store_lookup crate version docs (sanitizeKey k1) hsR hsM hsE, ?_⟩
  obtain ⟨a, ha, hak⟩ := List.mem_map.mp h1
  have hmem : a ∈ docs.filter (fun kv => decide (sanitizeKey kv.1 = sanitizeKey k1)) := by
    apply List.mem_filter.mpr
    refine ⟨ha, ?_⟩
    rw [hak]
    simp
  exact lastOpt_isSome_of_ne_nil
    (List.ne_nil_of_mem (List.mem_map_of_mem Prod.snd hmem)) none

theorem claim_C10_sanitize_collision_witness :
    ∃ loaded, load_cached_docs "pkg" "1.0"
        (save_docs_to_disk "pkg" "1.0" [("a/b", "x"), ("a:b", "y"), ("c", "z")] []).1
        = some loaded
      ∧ loaded.length < ([("a/b", "x"), ("a:b", "y"), ("c", "z")] :
          List (String × String)).length
      ∧ dictLookup loaded (sanitizeKey "a/b")
          = lastOpt ((([("a/b", "x"), ("a:b", "y"), ("c", "z")] :
              List (String × String)).filter
              (fun kv => decide (sanitizeKey kv.1 = sanitizeKey "a/b"))).map Prod.snd) none
      ∧ (lastOpt ((([("a/b", "x"), ("a:b", "y"), ("c", "z")] :
          List (String × String)).filter
          (fun kv => decide (sanitizeKey kv.1 = sanitizeKey "a/b"))).map Prod.snd)
          none).isSome = true :=
  claim_C10_sanitize_collision "pkg" "1.0" [("a/b", "x"), ("a:b", "y"), ("c", "z")]
    "a/b" "a:b" (by decide) (by decide) (by decide) (by decide) (by decide)

/-- C9 counterexample: in `docPreSpanCode` every `code` element has a `pre`
ancestor (`codesNestedInPre`), yet `_extract_documentation` still emits the
standalone inline fragment for it, because the source checks only the
immediate parent (`element.parent.name != 'pre'`), which here is `span`:
the fragment list is the title header, the fenced block for the `pre`, and
the backtick span for the nested `code`. -/
theorem claim_C9_counterexample :
    codesNestedInPre false docPreSpanCode = true
    ∧ extractFragments docPreSpanCode "t" = ["# t\n", "```rust\nx\n```\n", "`x`"]
    ∧ extract_doc_markdown docPreSpanCode "t" = "# t\n\n```rust\nx\n```\n\n`x`" := by
  decide

/-- C9 (amended): `_extract_documentation` emits a standalone
backtick-wrapped fragment for an inline `code` element exactly when the
element's immediate parent is not a preformatted block: with parent `pre` it
contributes no fragment, and with any other parent it contributes the
backtick span of its text; the extraction walk pairs each matched element
with precisely its direct parent's tag. A `code` element nested deeper under
a `pre` (non-`pre` immediate parent) therefore still contributes a
fragment. -/
theorem claim_C9_inline_code_direct_parent (p : String) (attrs : List (String × String))
    (cs : List Node) :
    (p = "pre" → fragmentFor p (.elem "code" attrs cs) = [])
    ∧ (p ≠ "pre" → fragmentFor p (.elem "code" attrs cs)
        = ["`" ++ getText (.elem "code" attrs cs) ++ "`"])
    ∧ (∀ soup title mc, findMainContent soup = some mc →
        extractFragments soup title
          = ("# " ++ title ++ "\n")
            :: (mc.descWP.filter (fun pn => wantedTags.contains (tagOf pn.2))).flatMap
                (fun pn => fragmentFor pn.1 pn.2)) := by
  refine ⟨?_, ?_, ?_⟩
  · intro hp
    simp [fragmentFor, hp, startswith]
  · intro hp
    simp [fragmentFor, hp, startswith]
  · intro soup title mc hmc
    unfold extractFragments
    rw [hmc]

theorem claim_C9_inline_code_direct_parent_witness :
    fragmentFor "pre" (.elem "code" [] [.text "x"]) = []
    ∧ fragmentFor "span" (.elem "code" [] [.text "x"]) = ["`x`"] := by
  constructor
  · exact (claim_C9_inline_code_direct_parent "pre" [] [.text "x"]).1 rfl
  · have h := (claim_C9_inline_code_direct_parent "span" [] [.text "x"]).2.1 (by decide)
    rw [h]
    decide

/-! ### Fetch lemmas and claims C2, C3, C6 -/

theorem fetchModules_trace (w : World) :
    ∀ (links : List (String × String)) (docs : List (String × String)),
      (fetchModules w docs links).2 = links.map Prod.snd
  | [], _ => rfl
  | (name, url) :: rest, docs => by
    simp only [fetchModules]
    rw [fetchModules_trace w rest, List.map_cons]

theorem fetch_feature_flags_trace (w : World) (crate version : String) :
    (fetch_feature_flags w crate version).2 = [featuresUrl crate version] := by
  unfold fetch_feature_flags
  cases hg : w.get (featuresUrl crate version) with
  | error e => rfl
  | ok p =>
    rcases p with ⟨st, body⟩
    by_cases hst : st ≠ 200
    · simp only [if_pos hst]
    · simp only [if_neg hst]
      cases hp : w.parseHtml body <;> rfl

/-- C6: for every environment — every pattern of network-request, HTML-parse
and I/O failures occurring inside it — `fetch_crate_docs` returns a
(possibly empty or partial) DocumentSet and never propagates an exception to
its caller: the result is always `Except.ok`, even though the un-handled
body `fetchBody` can evaluate to `Except.error`. -/
theorem claim_C6_fetch_never_raises (w : World) (crate version : String)
    (includeFeatures : Bool) :
    (fetch_crate_docs w crate version includeFeatures).1.isOk = true := by
  unfold fetch_crate_docs
  rcases fetchBody w crate version includeFeatures with ⟨res, tr⟩
  cases res <;> rfl

/-- C3: whenever the root documentation page request returns a non-success
(non-200) status, `fetch_crate_docs` returns the empty DocumentSet and its
request trace is exactly the root URL — no module-page and no features-page
request is issued, for either value of `includeFeatures`. -/
theorem claim_C3_root_non200 (w : World) (crate version : String)
    (includeFeatures : Bool) (status : Nat) (body : String)
    (hget : w.get (docsBaseUrl crate version) = .ok (status, body))
    (hst : status ≠ 200) :
    fetch_crate_docs w crate version includeFeatures
      = (.ok [], [docsBaseUrl crate version]) := by
  unfold fetch_crate_docs fetchBody
  rw [hget]
  simp [hst]

theorem claim_C3_root_non200_witness :
    fetch_crate_docs w404 "serde" "1.0.0" true
      = (.ok [], [docsBaseUrl "serde" "1.0.0"]) :=
  claim_C3_root_non200 w404 "serde" "1.0.0" true 404 "" rfl (by decide)

/-- C2: when the root page request succeeds with status 200 and the page
parses, the request trace of `fetch_crate_docs` is the root URL, then one
request per link of the first 10 discovered module links, then (only when
requested) the features URL: exactly `min n 10` module-page requests are
attempted for `n` discovered links, regardless of `n`. -/
theorem claim_C2_module_request_limit (w : World) (crate version : String)
    (includeFeatures : Bool) (body : String) (soup : Node)
    (hget : w.get (docsBaseUrl crate version) = .ok (200, body))
    (hparse : w.parseHtml body = .ok soup) :
    (fetch_crate_docs w crate version includeFeatures).2
      = docsBaseUrl crate version
        :: (((find_module_links soup (docsBaseUrl crate version)).take 10).map Prod.snd
          ++ (if includeFeatures then [featuresUrl crate version] else []))
    ∧ (((find_module_links soup (docsBaseUrl crate version)).take 10).map Prod.snd).length
      = min (find_module_links soup (docsBaseUrl crate version)).length 10 := by
  constructor
  · cases includeFeatures
    · simp [fetch_crate_docs, fetchBody, hget, hparse, fetchModules_trace]
    · simp [fetch_crate_docs, fetchBody, hget, hparse, fetchModules_trace,
        fetch_feature_flags_trace]
  · rw [List.length_map, List.length_take]
    exact Nat.min_comm 10 _

theorem claim_C2_module_request_limit_witness :
    (fetch_crate_docs w12 "serde" "1.0.0" false).2
      = docsBaseUrl "serde" "1.0.0"
        :: ((find_module_links soup12 (docsBaseUrl "serde" "1.0.0")).take 10).map Prod.snd
    ∧ (find_module_links soup12 (docsBaseUrl "serde" "1.0.0")).length = 12
    ∧ (((find_module_links soup12 (docsBaseUrl "serde" "1.0.0")).take 10).map
        Prod.snd).length = 10 := by
  have h := claim_C2_module_request_limit w12 "serde" "1.0.0" false "" soup12 rfl rfl
  refine ⟨?_, by decide, ?_⟩
  · rw [h.1]
    simp
  · rw [h.2]
    decide

/-! ### Workflow lemmas and claims C7, C8, C1 -/

theorem processDependency_acc_keys (w : World) (fs : CacheFS)
    (acc : List (String × String)) (evs : List Event) (dep : String × String)
    (n : String)
    (h : n ∈ (processDependency w (fs, acc, evs) dep).2.1.map Prod.fst) :
    n ∈ acc.map Prod.fst ∨ n = dep.1 := by
  unfold processDependency at h
  by_cases hr : (fetch_crate_docs_impl w dep.1 dep.2 fs).1 ≠ []
  · rw [if_pos hr] at h
    dsimp only at h
    by_cases hs : (save_docs_to_disk dep.1 dep.2 (fetch_crate_docs_impl w dep.1 dep.2 fs).1
        (fetch_crate_docs_impl w dep.1 dep.2 fs).2.1).2 ≠ ""
    · rw [if_pos hs] at h
      exact (mem_keys_dictInsert acc dep.1 n _).mp h
    · rw [if_neg hs] at h
      exact Or.inl h
  · rw [if_neg hr] at h
    dsimp only at h
    exact Or.inl h

theorem fold_acc_keys (w : World) :
    ∀ (l : List (String × String)) (fs : CacheFS) (acc : List (String × String))
      (evs : List Event) (n : String),
      n ∈ (l.foldl (processDependency w) (fs, acc, evs)).2.1.map Prod.fst →
      n ∈ acc.map Prod.fst ∨ n ∈ l.map Prod.fst
  | [], fs, acc, evs, n, h => Or.inl h
  | dep :: rest, fs, acc, evs, n, h => by
    rw [List.foldl_cons] at h
    rcases hst : processDependency w (fs, acc, evs) dep with ⟨fs1, st1⟩
    rcases st1 with ⟨acc1, evs1⟩
    rw [hst] at h
    rcases fold_acc_keys w rest fs1 acc1 evs1 n h with h1 | h2
    · have hk : n ∈ acc1.map Prod.fst := h1
      have := processDependency_acc_keys w fs acc evs dep n (by rw [hst]; exact hk)
      rcases this with ha | he
      · exact Or.inl ha
      · refine Or.inr ?_
        rw [List.map_cons, he]
        exact List.mem_cons_self _ _
    · exact Or.inr (by rw [List.map_cons]; exact List.mem_cons_of_mem _ h2)

/-- C7: the workflow processes only the first 5 dependencies in manifest
order (running the dependency loop on `deps` and on `deps.take 5` gives the
same result); every package name in the returned mapping comes from the
first 5 dependencies, so later dependencies are simply absent; a dependency
whose (possibly cached) fetch yields an empty set adds nothing to the
mapping; an empty parsed manifest yields the empty mapping immediately; and
`fetch_and_save_project_docs_impl` is the loop applied to the parsed
manifest — a total function, so absence never becomes an error. -/
theorem claim_C7_first_five (w : World) (fs : CacheFS) (deps : List (String × String)) :
    runWorkflowDeps w fs deps = runWorkflowDeps w fs (deps.take 5)
    ∧ (∀ n, n ∈ (runWorkflowDeps w fs deps).1.map Prod.fst →
        n ∈ (deps.take 5).map Prod.fst)
    ∧ (deps = [] → runWorkflowDeps w fs deps = ([], fs, []))
    ∧ (∀ fs0 acc evs dep, (fetch_crate_docs_impl w dep.1 dep.2 fs0).1 = [] →
        (processDependency w (fs0, acc, evs) dep).2.1 = acc)
    ∧ (∀ fileName content, fetch_and_save_project_docs_impl w fileName content fs
        = runWorkflowDeps w fs (read_cargo_lock_impl fileName content)) := by
  refine ⟨?_, ?_, ?_, ?_, fun _ _ => rfl⟩
  · by_cases hd : deps = []
    · rw [hd]
      rfl
    · have ht5 : deps.take 5 ≠ [] := by
        cases deps with
        | nil => exact absurd rfl hd
        | cons a l => simp [List.take]
      unfold runWorkflowDeps
      rw [if_neg hd, if_neg ht5, List.take_take]
      rfl
  · intro n h
    unfold runWorkflowDeps at h
    by_cases hd : deps = []
    · rw [if_pos hd] at h
      simp at h
    · rw [if_neg hd] at h
      rcases fold_acc_keys w (deps.take 5) fs [] [] n h with h1 | h2
      · simp at h1
      · exact h2
  · intro hd
    rw [hd]
    rfl
  · intro fs0 acc evs dep hempty
    unfold processDependency
    simp [hempty]

theorem claim_C7_first_five_witness :
    runWorkflowDeps w404 [] ([] : List (String × String)) = ([], [], [])
    ∧ (processDependency w404 ([], [], []) ("serde", "1.0.0")).2.1 = [] := by
  constructor
  · exact (claim_C7_first_five w404 [] []).2.2.1 rfl
  · exact (claim_C7_first_five w404 [] []).2.2.2.1 [] [] [] ("serde", "1.0.0") (by decide)

/-- C8: when the cache directory of a package/version exists but contains no
content file (every file either does not match `*.md` or is the `README.md`
index), `load_cached_docs` returns the empty — falsy — dict rather than
`None`, and `fetch_crate_docs_impl` treats that exactly like a miss: it
takes the same fetch-and-store path as an absent directory, whose event
trace always begins with a remote fetch. -/
theorem claim_C8_empty_cache_dir (w : World) (crate version : String) (fs : CacheFS)
    (files : List (String × String))
    (hdir : dictLookup fs (crate ++ "-" ++ version) = some files)
    (hnone : ∀ p ∈ files, endsWithMd p.1 = false ∨ p.1 = "README.md") :
    load_cached_docs crate version fs = some []
    ∧ fetch_crate_docs_impl w crate version fs = fetchAndStoreDocs w crate version fs
    ∧ (fetchAndStoreDocs w crate version fs).2.2.head? = some (Event.fetch crate version) := by
  have hload : load_cached_docs crate version fs = some [] := by
    unfold load_cached_docs
    rw [hdir]
    dsimp only
    have hfe : files.filter (fun p => endsWithMd p.1 && p.1 ≠ "README.md") = [] := by
      apply List.filter_eq_nil_iff.mpr
      intro p hp
      rcases hnone p hp with h1 | h2
      · simp [h1]
      · simp [h2]
    rw [hfe]
    rfl
  refine ⟨hload, ?_, ?_⟩
  · unfold fetch_crate_docs_impl
    rw [hload]
    simp
  · unfold fetchAndStoreDocs
    dsimp only
    split <;> rfl

theorem claim_C8_empty_cache_dir_witness :
    load_cached_docs "serde" "1.0.0" [("serde-1.0.0", [("README.md", "idx")])] = some []
    ∧ fetch_crate_docs_impl w404 "serde" "1.0.0" [("serde-1.0.0", [("README.md", "idx")])]
      = fetchAndStoreDocs w404 "serde" "1.0.0" [("serde-1.0.0", [("README.md", "idx")])]
    ∧ (fetchAndStoreDocs w404 "serde" "1.0.0"
        [("serde-1.0.0", [("README.md", "idx")])]).2.2.head?
      = some (Event.fetch "serde" "1.0.0") :=
  claim_C8_empty_cache_dir w404 "serde" "1.0.0" _ [("README.md", "idx")]
    (by decide) (by decide)

theorem save_on_existing_self (crate version : String) (docs0 : List (String × String))
    (fs : CacheFS)
    (hfs : (fs.map Prod.fst).Nodup)
    (hdir : dictLookup fs (crate ++ "-" ++ version)
      = some (dictInsert (storeContentFiles docs0 []) "README.md"
          (indexContent crate version docs0)))
    (hnd : (docs0.map Prod.fst).Nodup)
    (hkeys : ∀ kv ∈ docs0, kv.1 ≠ "" ∧ sanitizeKey kv.1 = kv.1 ∧ kv.1 ≠ "README") :
    save_docs_to_disk crate version docs0 fs = (fs, crate ++ "-" ++ version) := by
  have hdocs : docs0.Nodup := hnd.of_map
  have hkinj : ∀ kv1 ∈ docs0, ∀ kv2 ∈ docs0, kv1.1 = kv2.1 → kv1 = kv2 :=
    List.inj_on_of_nodup_map hnd
  have hmn : (docs0.map (fun kv => sanitizeKey kv.1 ++ ".md")).Nodup := by
    apply List.Nodup.map_on ?_ hdocs
    intro x hx y hy hxy
    apply hkinj x hx y hy
    have hc := append_md_cancel hxy
    rwa [(hkeys x hx).2.1, (hkeys y hy).2.1] at hc
  have hcontent : storeContentFiles docs0 []
      = docs0.map (fun kv => (sanitizeKey kv.1 ++ ".md", kv.2)) := by
    rw [storeContentFiles_eq_foldl]
    have happ := foldl_dictInsert_append
      (docs0.map (fun kv => (sanitizeKey kv.1 ++ ".md", kv.2))) []
      (by intro p hp; simp)
      (by rw [List.map_map]; exact hmn)
    simpa using happ
  have hReadmeNotMem : "README.md" ∉ (storeContentFiles docs0 []).map Prod.fst := by
    rw [hcontent, List.map_map]
    intro hmem
    obtain ⟨kv, hkv, he⟩ := List.mem_map.mp hmem
    simp only [Function.comp] at he
    apply (hkeys kv hkv).2.2
    have hc := append_md_cancel (show sanitizeKey kv.1 ++ ".md" = "README" ++ ".md" from he)
    rw [← (hkeys kv hkv).2.1]
    exact hc
  have hfiles1 : dictInsert (storeContentFiles docs0 []) "README.md"
      (indexContent crate version docs0)
      = storeContentFiles docs0 [] ++ [("README.md", indexContent crate version docs0)] :=
    dictInsert_not_mem _ _ _ hReadmeNotMem
  have hfiles1nodup : ((dictInsert (storeContentFiles docs0 []) "README.md"
      (indexContent crate version docs0)).map Prod.fst).Nodup := by
    apply nodup_keys_dictInsert
    rw [hcontent, List.map_map]
    exact hmn
  have hstore2 : storeContentFiles docs0 (dictInsert (storeContentFiles docs0 [])
      "README.md" (indexContent crate version docs0))
      = dictInsert (storeContentFiles docs0 []) "README.md"
          (indexContent crate version docs0) := by
    rw [storeContentFiles_eq_foldl]
    apply foldl_dictInsert_id _ _ hfiles1nodup
    intro p hp
    rw [hfiles1]
    apply List.mem_append_left
    rw [hcontent]
    exact hp
  have hreadme2 : dictInsert (dictInsert (storeContentFiles docs0 []) "README.md"
      (indexContent crate version docs0)) "README.md" (indexContent crate version docs0)
      = dictInsert (storeContentFiles docs0 []) "README.md"
          (indexContent crate version docs0) := by
    apply dictInsert_of_mem_eq _ _ _ hfiles1nodup
    rw [hfiles1]
    exact List.mem_append_right _ (List.mem_singleton.mpr rfl)
  have houter : dictInsert fs (crate ++ "-" ++ version)
      (dictInsert (storeContentFiles docs0 []) "README.md"
        (indexContent crate version docs0)) = fs :=
    dictInsert_of_mem_eq _ _ _ hfs (mem_of_dictLookup_eq_some hdir)
  unfold save_docs_to_disk
  dsimp only
  rw [hdir, Option.getD_some, hstore2, hreadme2, houter]

/-- C1 counterexample: with serde 1.0.0 cached (`fsSerde`, a fresh store of
the set `index ↦ D`) and a manifest listing exactly serde 1.0.0, the cache
load returns a non-empty DocumentSet, yet the workflow's event trace is
`[store serde 1.0.0]`: it performs no fetch but it does perform a store —
`fetch_and_save_project_docs_impl` saves unconditionally whenever docs are
non-empty, even when they came from the cache — so the claim that no store
is performed for a cache-hit dependency is false.  (The store rewrites
identical content: the final cache state equals `fsSerde`, which the
amended claim captures.) -/
theorem claim_C1_counterexample :
    load_cached_docs "serde" "1.0.0" fsSerde = some [("index", "D")]
    ∧ (fetch_and_save_project_docs_impl w404 "Cargo.lock" (some manifestSerde) fsSerde).2.2
      = [Event.store "serde" "1.0.0"]
    ∧ (fetch_and_save_project_docs_impl w404 "Cargo.lock" (some manifestSerde) fsSerde).2.1
      = fsSerde := by
  decide

/-- C1 (amended): for a dependency whose cache directory holds a previously
stored DocumentSet with non-empty, sanitization-invariant keys none of which
is `README`, the orchestrator's loop step uses the cached set and performs
no fetch, but it does re-store the loaded set (exactly one store event);
the re-store rewrites every content file and the index with identical
content, so the cache state — in particular that dependency's directory —
is unchanged, and the dependency's path is recorded in the result. -/
theorem claim_C1_cache_hit (w : World) (crate version : String)
    (docs0 : List (String × String)) (fs : CacheFS)
    (acc : List (String × String)) (evs : List Event)
    (hfs : (fs.map Prod.fst).Nodup)
    (hdir : dictLookup fs (crate ++ "-" ++ version)
      = some (dictInsert (storeContentFiles docs0 []) "README.md"
          (indexContent crate version docs0)))
    (hnd : (docs0.map Prod.fst).Nodup)
    (hne0 : docs0 ≠ [])
    (hkeys : ∀ kv ∈ docs0, kv.1 ≠ "" ∧ sanitizeKey kv.1 = kv.1 ∧ kv.1 ≠ "README") :
    processDependency w (fs, acc, evs) (crate, version)
      = (fs, dictInsert acc crate (crate ++ "-" ++ version),
         evs ++ [Event.store crate version]) := by
  have hloadRHS : load_cached_docs crate version (save_docs_to_disk crate version docs0 []).1
      = some ((docs0.filter (fun kv => decide (sanitizeKey kv.1 ≠ "README"))).map
          (fun kv => (sanitizeKey kv.1, kv.2))) :=
    load_store_roundtrip crate version docs0 hnd (fun kv h => (hkeys kv h).1)
      (fun kv1 h1 kv2 h2 he => by
        rw [← (hkeys kv1 h1).2.1, he, (hkeys kv2 h2).2.1])
  have hloadeq : load_cached_docs crate version fs
      = load_cached_docs crate version (save_docs_to_disk crate version docs0 []).1 := by
    unfold load_cached_docs save_docs_to_disk
    dsimp only [dictLookup, Option.getD]
    rw [hdir, if_pos rfl]
  have hsimp : (docs0.filter (fun kv => decide (sanitizeKey kv.1 ≠ "README"))).map
      (fun kv => (sanitizeKey kv.1, kv.2)) = docs0 := by
    have hf : docs0.filter (fun kv => decide (sanitizeKey kv.1 ≠ "README")) = docs0 := by
      apply List.filter_eq_self.mpr
      intro kv hkv
      simp only [decide_eq_true_eq]
      rw [(hkeys kv hkv).2.1]
      exact (hkeys kv hkv).2.2
    rw [hf]
    have hid : ∀ kv ∈ docs0,
        (fun kv : String × String => (sanitizeKey kv.1, kv.2)) kv = id kv := by
      intro kv hkv
      show (sanitizeKey kv.1, kv.2) = id kv
      rw [(hkeys kv hkv).2.1]
      rfl
    rw [List.map_congr_left hid, List.map_id]
  have hload : load_cached_docs crate version fs = some docs0 := by
    rw [hloadeq, hloadRHS, hsimp]
  have hdn : (crate ++ "-" ++ version) ≠ "" := by
    intro he
    have hc := congrArg String.data he
    rw [String.data_append, String.data_append] at hc
    simp at hc
  unfold processDependency fetch_crate_docs_impl
  rw [hload]
  dsimp only
  rw [if_pos hne0]
  dsimp only
  rw [if_pos hne0]
  rw [save_on_existing_self crate version docs0 fs hfs hdir hnd hkeys]
  dsimp only
  rw [if_pos hdn]
  simp

theorem claim_C1_cache_hit_witness :
    processDependency w404 (fsSerde, [], []) ("serde", "1.0.0")
      = (fsSerde, dictInsert [] "serde" "serde-1.0.0", [Event.store "serde" "1.0.0"]) := by
  have h := claim_C1_cache_hit w404 "serde" "1.0.0" [("index", "D")] fsSerde [] []
    (by decide) (by decide) (by decide) (by decide) (by decide)
  rw [h]
  decide
